import Mathlib

/-!
# Verification of the LDPC codec kernels

Shallow embedding of the C sources of the fec-ldpc-codec repository:

* `generate_Hmatrix` — Gallager-type regular parity-check matrix construction
  (`ldpc_matrix.c`), modelled over `Int` entries (C `int`) with an explicit
  prior-buffer argument and an explicit random stream.
* `generate_Gmatrix` — systematic generator construction by two-phase
  Gauss–Jordan elimination over GF(2) on the extended workspace `[Hᵀ | I]`,
  modelled over `Bool` entries.
* `count_floop` — 4-cycle counting on the Tanner graph.
* `ldpc_encode` — GF(2) generator-matrix encoding (`ldpc_encoder.c`).
* `ldpc_decode_spa` — sum-product decoding loop (`ldpc_decoder.c`); the
  transcendental message function φ is kept abstract (the C code computes it
  with IEEE-754 `log`/`exp`), every structural part of the loop is modelled.

Matrices are total functions `Nat → Nat → α`; every statement only constrains
the entries inside the dimensions the C code touches.
-/

namespace Ldpc

/-- GF(2) matrices: row index, column index to bit. -/
def Mat : Type := Nat → Nat → Bool

/-- C `int` matrices (used for the H-generation model, whose buffer may hold
arbitrary prior contents). -/
def IMat : Type := Nat → Nat → Int

/-- Number of parity equations: `M = (N * wc) / wr` (C integer division). -/
def Mdim (N wc wr : Nat) : Nat := N * wc / wr

/-! ## Search loops

The C pivot searches are `for` loops with `break`.  `searchUp P lo fuel`
scans `lo, lo+1, …, lo+fuel-1` and returns the first index satisfying `P`;
`searchDown P lo hi` scans `hi-1, hi-2, …` while the index stays `> lo`. -/

def searchUp (P : Nat → Bool) : Nat → Nat → Option Nat
  | _, 0 => none
  | lo, fuel + 1 => if P lo then some lo else searchUp P (lo + 1) fuel

def searchDown (P : Nat → Bool) (lo : Nat) : Nat → Option Nat
  | 0 => none
  | h + 1 => if h ≤ lo then none else if P h then some h else searchDown P lo h

/-! ## Loop combinator

`iterFrom f s x n` runs the C loop `for (j = s; j < s + n; j++) x = f x j;`. -/

def iterFrom {α : Type} (f : α → Nat → α) : Nat → α → Nat → α
  | _, x, 0 => x
  | s, x, n + 1 => iterFrom f (s + 1) (f x s) n

/-! ## Row and column primitives (GF(2) workspace) -/

/-- Swap rows `a` and `b` (the C `memcpy` triple). -/
def swapRows (X : Mat) (a b : Nat) : Mat :=
  fun i k => if i = a then X b k else if i = b then X a k else X i k

/-- Swap columns `a` and `b` (the C `col_buf` loop). -/
def swapCols (X : Mat) (a b : Nat) : Mat :=
  fun i k => if k = a then X i b else if k = b then X i a else X i k

/-- Row elimination: for every row `i < N` other than the pivot row `p` with a
one in pivot column `j`, XOR the pivot row into it. -/
def elimAll (N : Nat) (X : Mat) (p j : Nat) : Mat :=
  fun i k => if i < N ∧ i ≠ p ∧ X i j = true then xor (X i k) (X p k) else X i k

/-! ## Gallager construction (`generate_Hmatrix` in `ldpc_matrix.c`)

The C function receives the (externally allocated) `M × N` buffer `H`, whose
prior contents are arbitrary, clears it, writes the first band
deterministically and every further band as a random column permutation of
the first.  The process-wide `rand()` stream is modelled by `rnd : Nat → Nat`
(the value of the `t`-th call); band `b ≥ 1` consumes calls
`(b-1)*N … b*N - 1`. -/

/-- `tmp = perm[j]; perm[j] = perm[r]; perm[r] = tmp;` on a permutation
represented as a function. -/
def swapFun (p : Nat → Nat) (a b : Nat) : Nat → Nat :=
  fun x => if x = a then p b else if x = b then p a else p x

/-- The in-place shuffle: start from the identity permutation and, for
`j = 0 … N-1`, swap entries `j` and `rand() % N`. -/
def mkPerm (N : Nat) (r : Nat → Nat) : Nat → Nat :=
  iterFrom (fun p j => swapFun p j (r j % N)) 0 id N

/-- `for (i = 0; i < M; i++) for (j = 0; j < N; j++) H[i][j] = 0;` -/
def clearH (M N : Nat) (H : IMat) : IMat :=
  fun i j => if i < M ∧ j < N then 0 else H i j

/-- Step 1: first band, `H[i][j] = 1` for `i < block_rows`,
`j ∈ [i*wr, (i+1)*wr)`. -/
def firstBand (br wr : Nat) (H : IMat) : IMat :=
  fun i j => if i < br ∧ i * wr ≤ j ∧ j < (i + 1) * wr then 1 else H i j

/-- Step 2, one band: rows `[br*b, br*(b+1))` get the first band's rows with
columns permuted: `H[j][k] = H[j - br*b][perm[k]]`. -/
def applyBand (br N : Nat) (b : Nat) (perm : Nat → Nat) (H : IMat) : IMat :=
  fun i k => if br * b ≤ i ∧ i < br * (b + 1) ∧ k < N then H (i - br * b) (perm k) else H i k

/-- `generate_Hmatrix(H, N, wc, wr)` with random stream `rnd`. -/
def generate_Hmatrix (H : IMat) (N wc wr : Nat) (rnd : Nat → Nat) : IMat :=
  let M := Mdim N wc wr
  let br := M / wc
  let H1 := firstBand br wr (clearH M N H)
  iterFrom (fun Hc b => applyBand br N b (mkPerm N (fun t => rnd ((b - 1) * N + t))) Hc)
    1 H1 (wc - 1)

/-- The column permutation used for band `b` (identity for the first band). -/
def bandPerm (N : Nat) (rnd : Nat → Nat) (b : Nat) : Nat → Nat :=
  if b = 0 then id else mkPerm N (fun t => rnd ((b - 1) * N + t))

/-- Value written for row `rr` of band `b` at column `k`
(`bandVal b rr k = 1` iff the band-0 row `rr` has a one at `bandPerm b k`). -/
def bandVal (N wr : Nat) (rnd : Nat → Nat) (b rr k : Nat) : Int :=
  if rr * wr ≤ bandPerm N rnd b k ∧ bandPerm N rnd b k < (rr + 1) * wr then 1 else 0

/-! ## 4-cycle counting (`count_floop` in `ldpc_matrix.c`)

`var_nodes[j]` collects the row indices of the first `wc` ones of column `j`
(the C loop breaks once `idx == wc`); `shared` counts index pairs `(k, l)`
with `var_nodes[i][k] == var_nodes[j][l]`; each pair of columns sharing
`s ≥ 2` check nodes contributes `s!/(2·(s-2)!)`. -/

/-- C `factorial`: `f = 1; for (i = 1; i <= n; i++) f *= i;`. -/
def factorial (n : Nat) : Nat := iterFrom (fun f i => f * i) 1 1 n

/-- Adjacency list of variable node `j`: the first `wc` rows carrying a one. -/
def var_nodes (H : Mat) (M wc : Nat) (j : Nat) : List Nat :=
  ((List.range M).filter (fun i => H i j)).take wc

/-- `shared` for the column pair `(i, j)`. -/
def sharedCount (H : Mat) (M wc : Nat) (i j : Nat) : Nat :=
  ((var_nodes H M wc i).map (fun a => (var_nodes H M wc j).count a)).sum

/-- Contribution of one column pair: `factorial(s)/(2*factorial(s-2))` when
`s ≥ 2`, else nothing. -/
def pairContrib (s : Nat) : Nat :=
  if 2 ≤ s then factorial s / (2 * factorial (s - 2)) else 0

/-- `count_floop(H, N, wc, wr)`: sum over column pairs `i < j`. -/
def count_floop (H : Mat) (N wc wr : Nat) : Nat :=
  ∑ i ∈ Finset.range (N - 1), ∑ j ∈ Finset.Ico (i + 1) N,
    pairContrib (sharedCount H (Mdim N wc wr) wc i j)

/-! ## Encoder (`ldpc_encode` in `ldpc_encoder.c`)

`ecc[i] = XOR over j < K of (inf[j] & G[j][i])`, computed for each `i < N`. -/

def ldpc_encode (inf : Nat → Bool) (G : Mat) (N K : Nat) : Nat → Bool :=
  fun i => iterFrom (fun acc j => xor acc (inf j && G j i)) 0 false K

/-! ## SPA decoder (`ldpc_decode_spa` in `ldpc_decoder.c`)

The C decoder computes with IEEE-754 doubles; `spf(x) = log((e^x+1)/(e^x-1))`
(with clamping) is left as a parameter of the model and the message
arithmetic is carried out over `ℚ` — no claim settled here depends on the
transcendental values.  The caller's `ecc` buffer (a C `int*` whose prior
contents the function may leave in place) is an explicit argument. -/

/-- `sign_val(x) = x >= 0 ? 1 : -1`. -/
def sign_val (x : ℚ) : ℚ := if 0 ≤ x then 1 else -1

/-- `check_node[i]`: columns of row `i` holding a one, in index order. -/
def check_node (H : Mat) (N : Nat) (i : Nat) : List Nat :=
  (List.range N).filter (fun j => H i j)

/-- `variable_node[j]`: rows of column `j` holding a one, in index order. -/
def variable_node (H : Mat) (M : Nat) (j : Nat) : List Nat :=
  (List.range M).filter (fun i => H i j)

/-- Decoder state: message arrays `u`, `v`, the `ecc` buffer, and whether the
syndrome check has succeeded (models the C `break`). -/
structure SpaState where
  u : Nat → Nat → ℚ
  v : Nat → Nat → ℚ
  ecc : Nat → Int
  done : Bool

/-- Check-node update:
`v[i][q] = (∏_{j ≠ q} sign(LLR[j]+u[i][j])) * spf(∑_{j ≠ q} spf|LLR[j]+u[i][j]|)`. -/
def checkUpdate (spf : ℚ → ℚ) (LLR : Nat → ℚ) (H : Mat) (M N : Nat)
    (u v : Nat → Nat → ℚ) : Nat → Nat → ℚ :=
  fun i q =>
    if i < M ∧ H i q = true then
      ((check_node H N i).filter (fun j => j ≠ q)).foldl
          (fun s j => s * sign_val (LLR j + u i j)) 1 *
        spf (((check_node H N i).filter (fun j => j ≠ q)).foldl
          (fun s j => s + spf |LLR j + u i j|) 0)
    else v i q

/-- Variable-node update: `u[p][j] = ∑_{c ≠ p incident to j} v[c][j]`
(the channel LLR is not added here). -/
def varUpdate (H : Mat) (M N : Nat) (v u : Nat → Nat → ℚ) : Nat → Nat → ℚ :=
  fun p j =>
    if j < N ∧ H p j = true then
      ((variable_node H M j).filter (fun c => c ≠ p)).foldl (fun s c => s + v c j) 0
    else u p j

/-- Tentative decision: `ecc[j] = (LLR[j] + ∑ incident v) ≥ 0 ? 1 : 0`. -/
def tentativeDecision (LLR : Nat → ℚ) (H : Mat) (M N : Nat)
    (v : Nat → Nat → ℚ) (ecc : Nat → Int) : Nat → Int :=
  fun j =>
    if j < N then
      if 0 ≤ (variable_node H M j).foldl (fun s i => s + v i j) (LLR j) then 1 else 0
    else ecc j

/-- Syndrome check: every check XORs to zero. -/
def parityOk (H : Mat) (M N : Nat) (ecc : Nat → Int) : Bool :=
  (List.range M).all (fun i =>
    ((check_node H N i).foldl (fun par jj => xor par (ecc jj == 1)) false) == false)

/-- One SPA iteration in the C order: check update, variable update,
tentative decision, syndrome check (the `done` flag models the loop break). -/
def spaIteration (spf : ℚ → ℚ) (LLR : Nat → ℚ) (H : Mat) (M N : Nat)
    (s : SpaState) : SpaState :=
  if s.done then s
  else
    let v' := checkUpdate spf LLR H M N s.u s.v
    let u' := varUpdate H M N v' s.u
    let ecc' := tentativeDecision LLR H M N v' s.ecc
    { u := u', v := v', ecc := ecc', done := parityOk H M N ecc' }

/-- `ldpc_decode_spa(LLR, ecc, inf, H, M, N, K, max_iter)`: run at most
`max_iter` iterations from zero messages, then extract
`inf[i] = ecc[i + (N - K)]`.  Returns the pair `(ecc, inf)`. -/
def ldpc_decode_spa (spf : ℚ → ℚ) (LLR : Nat → ℚ) (ecc0 : Nat → Int) (H : Mat)
    (M N K : Nat) (max_iter : Nat) : (Nat → Int) × (Nat → Int) :=
  let final := iterFrom (fun s _ => spaIteration spf LLR H M N s) 0
    { u := fun _ _ => 0, v := fun _ _ => 0, ecc := ecc0, done := false } max_iter
  (final.ecc, fun i => final.ecc (i + (N - K)))

/-! ## Systematic generator construction (`generate_Gmatrix` in `ldpc_matrix.c`)

Two-phase Gauss–Jordan over GF(2) on the `N × (M+N)` workspace
`X = [Hᵀ | I]`.  Phase A reduces columns `0 … M-1` (column swaps here do not
touch `H`); phase B reduces columns `2M … M+N-1` with pivot row `j - M`,
mirroring any column swap on `H`.  Finally
`G[i-M][j-M] = X[i][j]` for `i ∈ [M, N)`, `j ∈ [M, M+N)`. -/

/-- Initial workspace `X = [Hᵀ | I]`. -/
def initX (H : Mat) (M : Nat) : Mat :=
  fun i j => if j < M then H j i else decide (i = j - M)

/-- Phase-A pivot fix-up for column `j`: if `X[j][j] = 0`, search rows
`j+1 … N-1` for a one in column `j` (first hit swaps rows); failing that,
search columns `M+N-1 … j+1` downwards for a one in row `j` (first hit swaps
columns; `H` is unaffected). -/
def fixA (M N : Nat) (X : Mat) (j : Nat) : Mat :=
  if X j j = true then X
  else
    match searchUp (fun i => X i j) (j + 1) (N - (j + 1)) with
    | some i => swapRows X j i
    | none =>
      match searchDown (fun k => X j k) j (M + N) with
      | some k => swapCols X j k
      | none => X

/-- One phase-A step: fix-up, then eliminate column `j` with pivot row `j`. -/
def phaseAstep (M N : Nat) (X : Mat) (j : Nat) : Mat :=
  elimAll N (fixA M N X j) j j

/-- Phase-B pivot fix-up for column `j ∈ [2M, M+N)` (pivot row `j - M`): row
search as in phase A; the downward column search runs over `k > M-1` (for
`M ≥ 1` exactly the C loop bound), and a hit swaps columns `j, k` of `X`
together with columns `j-M, k-M` of `H`. -/
def fixB (M N : Nat) (s : Mat × Mat) (j : Nat) : Mat × Mat :=
  if s.1 (j - M) j = true then s
  else
    match searchUp (fun i => s.1 i j) (j - M + 1) (N - (j - M + 1)) with
    | some i => (swapRows s.1 (j - M) i, s.2)
    | none =>
      match searchDown (fun k => s.1 (j - M) k) (M - 1) (M + N) with
      | some k => (swapCols s.1 j k, swapCols s.2 (j - M) (k - M))
      | none => s

/-- One phase-B step: fix-up, then eliminate column `j` with pivot row `j-M`. -/
def phaseBstep (M N : Nat) (s : Mat × Mat) (j : Nat) : Mat × Mat :=
  (elimAll N (fixB M N s j).1 (j - M) j, (fixB M N s j).2)

/-- Workspace after `t` phase-A steps. -/
def stepsA (H : Mat) (M N : Nat) (t : Nat) : Mat :=
  iterFrom (fun X j => phaseAstep M N X j) 0 (initX H M) t

/-- State after all of phase A and `t` phase-B steps. -/
def stepsB (H : Mat) (M N : Nat) (t : Nat) : Mat × Mat :=
  iterFrom (fun s j => phaseBstep M N s j) (2 * M) (stepsA H M N M, H) t

/-- `generate_Gmatrix(H, G, N, wc, wr)`: returns the possibly column-permuted
`H` and the `K × N` generator `G`. -/
def generate_Gmatrix (H : Mat) (N wc wr : Nat) : Mat × Mat :=
  let M := Mdim N wc wr
  let s := stepsB H M N (N - M)
  (s.2, fun a c => s.1 (M + a) (M + c))

/-- Every pivot search of phase A finds a pivot: after the fix-up of step
`j` the pivot entry `X[j][j]` is one. -/
def successA (H : Mat) (M N : Nat) : Prop :=
  ∀ j, j < M → fixA M N (stepsA H M N j) j j j = true

/-- Every pivot search of phase B finds a pivot: after the fix-up of step
`t` (column `2M+t`, pivot row `M+t`) the pivot entry is one. -/
def successB (H : Mat) (M N : Nat) : Prop :=
  ∀ t, t < N - M →
    (fixB M N (stepsB H M N t) (2 * M + t)).1 (M + t) (2 * M + t) = true

instance successA_dec (H : Mat) (M N : Nat) : Decidable (successA H M N) := by
  unfold successA
  exact inferInstance

instance successB_dec (H : Mat) (M N : Nat) : Decidable (successB H M N) := by
  unfold successB
  exact inferInstance

/-! ### Parity bookkeeping

`Orth Wd X W N M` says every row of `X` (below `N`) is GF(2)-orthogonal to
every row of `W` (below `M`) over the first `Wd` positions. -/

def Orth (Wd : Nat) (X W : Mat) (N M : Nat) : Prop :=
  ∀ i, i < N → ∀ m, m < M →
    Even (((Finset.range Wd).filter (fun p => X i p = true ∧ W m p = true)).card)

/-! ### The phase-A invariant

`settled`: columns `0 … t-1` are unit columns.  `middle`: the not-yet-pivoted
rows below `M` are zero on the workspace columns `≥ 2M` (this is what keeps
every phase-A column swap inside `[t+1, 2M)`).  `ghost`: a set `mis` of
"misplaced" right-half positions (old left columns moved out by a phase-A
cross swap, each zero from its creation step `bd k` down), a shadow matrix
`W` that follows every column swap of `X` so that `X·Wᵀ = 0` over GF(2)
throughout, and the fact that `W` agrees with `H` on the right half away
from `mis`. -/

structure AInv (H : Mat) (M N t : Nat) (X : Mat) : Prop where
  settled : ∀ j, j < t → ∀ i, i < N → X i j = decide (i = j)
  middle : ∀ i, t ≤ i → i < M → ∀ c, 2 * M ≤ c → c < M + N → X i c = false
  ghost : ∃ (mis : Finset Nat) (bd : Nat → Nat) (W : Mat),
    (∀ k ∈ mis, M ≤ k ∧ k < 2 * M ∧ bd k < t ∧ bd k < M ∧
      ∀ i, bd k ≤ i → i < N → X i k = false) ∧
    Orth (M + N) X W N M ∧
    (∀ p, M ≤ p → p < M + N → p ∉ mis → ∀ m, m < M → W m p = H m (p - M))

/-! ### The phase-B invariant

Phase-A settled columns persist, the processed phase-B columns `2M+t'` are
unit columns `e_{M+t'}`, and the ghost data survives — with `W` now aligned
to the *current* (column-swapped) `H` kept in the state. -/

structure BInv (M N t : Nat) (s : Mat × Mat) : Prop where
  settledA : ∀ j, j < M → ∀ i, i < N → s.1 i j = decide (i = j)
  settledB : ∀ t', t' < t → ∀ i, i < N → s.1 i (2 * M + t') = decide (i = M + t')
  ghost : ∃ (mis : Finset Nat) (bd : Nat → Nat) (W : Mat),
    (∀ k ∈ mis, M ≤ k ∧ k < 2 * M ∧ bd k < M ∧
      ∀ i, bd k ≤ i → i < N → s.1 i k = false) ∧
    Orth (M + N) s.1 W N M ∧
    (∀ p, M ≤ p → p < M + N → p ∉ mis → ∀ m, m < M → W m p = s.2 m (p - M))

theorem searchUp_some {P : Nat → Bool} {lo fuel i : Nat}
    (h : searchUp P lo fuel = some i) :
    lo ≤ i ∧ i < lo + fuel ∧ P i = true ∧ ∀ t, lo ≤ t → t < i → P t = false := by
  induction fuel generalizing lo with
  | zero => simp [searchUp] at h
  | succ n ih =>
    rw [searchUp] at h
    by_cases hP : P lo
    · simp [hP] at h
      subst h
      exact ⟨le_refl _, by omega, hP, fun t h1 h2 => absurd h1 (by omega)⟩
    · simp [hP] at h
      obtain ⟨h1, h2, h3, h4⟩ := ih h
      refine ⟨by omega, by omega, h3, fun t ht1 ht2 => ?_⟩
      rcases Nat.eq_or_lt_of_le ht1 with rfl | hlt
      · exact Bool.eq_false_iff.mpr hP
      · exact h4 t hlt ht2

theorem searchUp_none {P : Nat → Bool} {lo fuel : Nat}
    (h : searchUp P lo fuel = none) :
    ∀ t, lo ≤ t → t < lo + fuel → P t = false := by
  induction fuel generalizing lo with
  | zero => intro t h1 h2; omega
  | succ n ih =>
    rw [searchUp] at h
    by_cases hP : P lo
    · simp [hP] at h
    · simp [hP] at h
      intro t h1 h2
      rcases Nat.eq_or_lt_of_le h1 with rfl | hlt
      · exact Bool.eq_false_iff.mpr hP
      · exact ih h t hlt (by omega)

theorem searchDown_some {P : Nat → Bool} {lo hi k : Nat}
    (h : searchDown P lo hi = some k) :
    lo < k ∧ k < hi ∧ P k = true ∧ ∀ t, k < t → t < hi → P t = false := by
  induction hi with
  | zero => simp [searchDown] at h
  | succ n ih =>
    rw [searchDown] at h
    by_cases hlo : n ≤ lo
    · simp [hlo] at h
    · simp [hlo] at h
      by_cases hP : P n
      · simp [hP] at h
        subst h
        exact ⟨by omega, by omega, hP, fun t h1 h2 => by omega⟩
      · simp [hP] at h
        obtain ⟨h1, h2, h3, h4⟩ := ih h
        refine ⟨h1, by omega, h3, fun t ht1 ht2 => ?_⟩
        rcases Nat.lt_succ_iff_lt_or_eq.mp ht2 with hlt | rfl
        · exact h4 t ht1 hlt
        · exact Bool.eq_false_iff.mpr hP

theorem searchDown_none {P : Nat → Bool} {lo hi : Nat}
    (h : searchDown P lo hi = none) :
    ∀ t, lo < t → t < hi → P t = false := by
  induction hi with
  | zero => intro t h1 h2; omega
  | succ n ih =>
    rw [searchDown] at h
    by_cases hlo : n ≤ lo
    · intro t h1 h2; omega
    · simp [hlo] at h
      by_cases hP : P n
      · simp [hP] at h
      · simp [hP] at h
        intro t h1 h2
        rcases Nat.lt_succ_iff_lt_or_eq.mp h2 with hlt | rfl
        · exact ih h t h1 hlt
        · exact Bool.eq_false_iff.mpr hP

theorem iterFrom_zero {α : Type} (f : α → Nat → α) (s : Nat) (x : α) :
    iterFrom f s x 0 = x := rfl

theorem iterFrom_succ {α : Type} (f : α → Nat → α) (s : Nat) (x : α) (n : Nat) :
    iterFrom f s x (n + 1) = iterFrom f (s + 1) (f x s) n := rfl

theorem iterFrom_last {α : Type} (f : α → Nat → α) (s : Nat) (x : α) (n : Nat) :
    iterFrom f s x (n + 1) = f (iterFrom f s x n) (s + n) := by
  induction n generalizing s x with
  | zero => rfl
  | succ m ih =>
    rw [iterFrom_succ, ih, iterFrom_succ]
    congr 1
    omega

theorem iterFrom_invariant {α : Type} {P : α → Prop} (f : α → Nat → α)
    (s : Nat) (x : α) (n : Nat) (hx : P x)
    (hf : ∀ y j, P y → s ≤ j → j < s + n → P (f y j)) :
    P (iterFrom f s x n) := by
  induction n generalizing s x with
  | zero => exact hx
  | succ m ih =>
    rw [iterFrom_succ]
    exact ih (s + 1) _ (hf x s hx (le_refl s) (by omega))
      (fun y j hy h1 h2 => hf y j hy (by omega) (by omega))

theorem iterFrom_rel {α β : Type} {R : α → β → Prop} (f : α → Nat → α)
    (g : β → Nat → β) (s : Nat) (x : α) (y : β) (n : Nat) (hxy : R x y)
    (hf : ∀ a b j, R a b → s ≤ j → j < s + n → R (f a j) (g b j)) :
    R (iterFrom f s x n) (iterFrom g s y n) := by
  induction n generalizing s x y with
  | zero => exact hxy
  | succ m ih =>
    rw [iterFrom_succ, iterFrom_succ]
    exact ih (s + 1) _ _ (hf x y s hxy (le_refl s) (by omega))
      (fun a b j hab h1 h2 => hf a b j hab (by omega) (by omega))

theorem swapRows_apply (X : Mat) (a b i k : Nat) :
    swapRows X a b i k = if i = a then X b k else if i = b then X a k else X i k := rfl

theorem swapCols_apply (X : Mat) (a b i k : Nat) :
    swapCols X a b i k = if k = a then X i b else if k = b then X i a else X i k := rfl

theorem elimAll_apply (N : Nat) (X : Mat) (p j i k : Nat) :
    elimAll N X p j i k =
      if i < N ∧ i ≠ p ∧ X i j = true then xor (X i k) (X p k) else X i k := rfl

/-- The shuffle yields a bijection of `Nat` fixing everything `≥ N`. -/
theorem mkPerm_spec (N : Nat) (r : Nat → Nat) (hN : 0 < N) :
    Function.Bijective (mkPerm N r) ∧ ∀ x, N ≤ x → mkPerm N r x = x := by
  unfold mkPerm
  apply iterFrom_invariant (P := fun p => Function.Bijective p ∧ ∀ x, N ≤ x → p x = x)
  · exact ⟨Function.bijective_id, fun x _ => rfl⟩
  · rintro p j ⟨hbij, hfix⟩ h0 hj
    have hswap : swapFun p j (r j % N) = p ∘ (Equiv.swap j (r j % N)) := by
      funext x
      simp only [swapFun, Function.comp_apply, Equiv.swap_apply_def, apply_ite p]
    constructor
    · rw [hswap]
      exact hbij.comp (Equiv.bijective _)
    · intro x hx
      have h1 : x ≠ j := by omega
      have h2 : x ≠ r j % N := by
        have := Nat.mod_lt (r j) hN
        omega
      rw [hswap]
      simp only [Function.comp_apply, Equiv.swap_apply_def, if_neg h1, if_neg h2]
      exact hfix x hx

theorem mkPerm_lt {N : Nat} (r : Nat → Nat) {k : Nat} (hk : k < N) :
    mkPerm N r k < N := by
  obtain ⟨⟨hinj, hsurj⟩, hfix⟩ := mkPerm_spec N r (by omega)
  by_contra hge
  push_neg at hge
  have h1 := hfix _ hge
  have h2 := hinj h1
  omega

theorem bandPerm_lt {N : Nat} (rnd : Nat → Nat) (b : Nat) {k : Nat} (hk : k < N) :
    bandPerm N rnd b k < N := by
  unfold bandPerm
  split
  · exact hk
  · exact mkPerm_lt _ hk

theorem bandPerm_inj {N : Nat} (rnd : Nat → Nat) (b : Nat) :
    Function.Injective (bandPerm N rnd b) := by
  unfold bandPerm
  split
  · exact fun a b h => h
  · rcases Nat.eq_zero_or_pos N with rfl | hN
    · exact fun a b h => h
    · exact (mkPerm_spec N _ hN).1.1

theorem bandPerm_surj {N : Nat} (rnd : Nat → Nat) (b : Nat) {v : Nat} (hv : v < N) :
    ∃ k, k < N ∧ bandPerm N rnd b k = v := by
  unfold bandPerm
  split
  · exact ⟨v, hv, rfl⟩
  · obtain ⟨⟨hinj, hsurj⟩, hfix⟩ := mkPerm_spec N (fun t => rnd ((b - 1) * N + t)) (by omega)
    obtain ⟨k, hk⟩ := hsurj v
    refine ⟨k, ?_, hk⟩
    by_contra hge
    push_neg at hge
    rw [hfix k hge] at hk
    omega

/-- Closed form of every in-range entry of `generate_Hmatrix`: row `br*b + rr`
of band `b` holds the first band's row `rr` seen through `bandPerm b`.  (Holds
for every parameter choice; no divisibility is required.) -/
theorem generate_Hmatrix_entry (H0 : IMat) (N wc wr : Nat) (rnd : Nat → Nat)
    {b rr k : Nat} (hb : b < wc) (hrr : rr < Mdim N wc wr / wc) (hk : k < N) :
    generate_Hmatrix H0 N wc wr rnd (Mdim N wc wr / wc * b + rr) k =
      bandVal N wr rnd b rr k := by
  set M := Mdim N wc wr with hM
  set br := M / wc with hbr
  have hbrM : br ≤ M := Nat.div_le_self M wc
  -- the state after processing bands 1..t
  set f : IMat → Nat → IMat := fun Hc b' =>
    applyBand br N b' (mkPerm N (fun t => rnd ((b' - 1) * N + t))) Hc with hf
  set H1 : IMat := firstBand br wr (clearH M N H0) with hH1
  have hbp0 : ∀ v : Nat, bandPerm N rnd 0 v = v := fun v => by simp [bandPerm]
  have hbase : ∀ rr' k', rr' < br → k' < N →
      H1 rr' k' = bandVal N wr rnd 0 rr' k' := by
    intro rr' k' h1 h2
    simp only [hH1, firstBand, clearH, bandVal, hbp0]
    by_cases hc : rr' * wr ≤ k' ∧ k' < (rr' + 1) * wr
    · rw [if_pos ⟨h1, hc.1, hc.2⟩, if_pos hc]
    · rw [if_neg (by tauto), if_pos ⟨by omega, h2⟩, if_neg hc]
  have hinv : ∀ t, t ≤ wc - 1 →
      (∀ b' rr' k', b' ≤ t → rr' < br → k' < N →
        iterFrom f 1 H1 t (br * b' + rr') k' = bandVal N wr rnd b' rr' k') ∧
      (∀ i k', br * (t + 1) ≤ i → k' < N → iterFrom f 1 H1 t i k' = H1 i k') := by
    intro t
    induction t with
    | zero =>
      intro _
      refine ⟨?_, fun i k' _ _ => rfl⟩
      intro b' rr' k' hb' h1 h2
      have hb0 : b' = 0 := by omega
      subst hb0
      rw [Nat.mul_zero, Nat.zero_add]
      exact hbase rr' k' h1 h2
    | succ s ih =>
      intro hs
      obtain ⟨ih1, ih2⟩ := ih (by omega)
      rw [iterFrom_last]
      have hstep : f (iterFrom f 1 H1 s) (1 + s) =
          applyBand br N (s + 1) (mkPerm N (fun t => rnd ((s + 1 - 1) * N + t)))
            (iterFrom f 1 H1 s) := by
        rw [Nat.add_comm 1 s]
      rw [hstep]
      have hmul : br * (s + 1 + 1) = br * (s + 1) + br := by ring
      constructor
      · intro b' rr' k' hb' h1 h2
        by_cases hbs : b' = s + 1
        · subst hbs
          simp only [applyBand]
          rw [if_pos ⟨Nat.le_add_right _ _, by omega, h2⟩]
          have hsub : br * (s + 1) + rr' - br * (s + 1) = rr' := by omega
          rw [hsub]
          have hperm : mkPerm N (fun t => rnd ((s + 1 - 1) * N + t)) k' =
              bandPerm N rnd (s + 1) k' := by
            simp [bandPerm]
          have hlt : mkPerm N (fun t => rnd ((s + 1 - 1) * N + t)) k' < N := by
            rw [hperm]
            exact bandPerm_lt rnd (s + 1) h2
          have h0 := ih1 0 rr' _ (Nat.zero_le s) h1 hlt
          rw [Nat.mul_zero, Nat.zero_add] at h0
          rw [h0]
          simp only [bandVal, hbp0]
          rw [← hperm]
        · have hb's : b' ≤ s := by omega
          have hlt2 : br * b' + rr' < br * (s + 1) := by
            have hmono : br * (b' + 1) ≤ br * (s + 1) :=
              Nat.mul_le_mul_left br (by omega)
            have hx : br * (b' + 1) = br * b' + br := by ring
            omega
          simp only [applyBand]
          rw [if_neg (by
            rintro ⟨hc1, -, -⟩
            omega)]
          exact ih1 b' rr' k' hb's h1 h2
      · intro i k' hge h2
        simp only [applyBand]
        rw [if_neg (by
          rintro ⟨-, hc2, -⟩
          omega)]
        refine ih2 i k' ?_ h2
        omega
  have hfinal := (hinv (wc - 1) (le_refl _)).1 b rr k (by omega) hrr hk
  have hrw : generate_Hmatrix H0 N wc wr rnd = iterFrom f 1 H1 (wc - 1) := rfl
  rw [hrw]
  exact hfinal

theorem bandVal_eq_one_iff (N wr : Nat) (rnd : Nat → Nat) (b rr k : Nat) :
    bandVal N wr rnd b rr k = 1 ↔
      rr * wr ≤ bandPerm N rnd b k ∧ bandPerm N rnd b k < (rr + 1) * wr := by
  unfold bandVal
  split
  · simp_all
  · simp_all

/-- Claim C2: for every prior buffer and random stream, with `wc ≥ 2`,
`wr > wc`, `wr ∣ N` and `wc ∣ M`, the matrix written by `generate_Hmatrix`
has exactly `wc` ones in every column and exactly `wr` ones in every row. -/
theorem build_H_regular (H0 : IMat) (N wc wr : Nat) (rnd : Nat → Nat)
    (hwc : 2 ≤ wc) (hwr : wc < wr) (hdN : wr ∣ N) (hdM : wc ∣ Mdim N wc wr) :
    (∀ j < N, ((Finset.range (Mdim N wc wr)).filter
        (fun i => generate_Hmatrix H0 N wc wr rnd i j = 1)).card = wc) ∧
    (∀ i < Mdim N wc wr, ((Finset.range N).filter
        (fun j => generate_Hmatrix H0 N wc wr rnd i j = 1)).card = wr) := by
  set M := Mdim N wc wr with hM
  set br := M / wc with hbr
  have hwc0 : 0 < wc := by omega
  have hwr0 : 0 < wr := by omega
  have hMwr : M * wr = N * wc := by
    rw [hM]
    exact Nat.div_mul_cancel (Dvd.dvd.mul_right hdN wc)
  have hbrwc : br * wc = M := Nat.div_mul_cancel hdM
  have hbrwr : br * wr = N := by
    have h1 : br * wr * wc = N * wc := by
      calc br * wr * wc = br * wc * wr := by ring
        _ = M * wr := by rw [hbrwc]
        _ = N * wc := hMwr
    exact Nat.eq_of_mul_eq_mul_right hwc0 h1
  constructor
  · -- column weights
    intro j hj
    have hN0 : 0 < N := by omega
    have hbr0 : 0 < br := by
      rcases Nat.eq_zero_or_pos br with h | h
      · rw [h, Nat.zero_mul] at hbrwr
        omega
      · exact h
    have himg : (Finset.range M).filter
        (fun i => generate_Hmatrix H0 N wc wr rnd i j = 1) =
        (Finset.range wc).image (fun b => br * b + bandPerm N rnd b j / wr) := by
      ext i
      simp only [Finset.mem_filter, Finset.mem_image, Finset.mem_range]
      constructor
      · rintro ⟨hiM, hone⟩
        refine ⟨i / br, ?_, ?_⟩
        · rw [Nat.div_lt_iff_lt_mul hbr0]
          calc i < M := hiM
            _ = wc * br := by rw [← hbrwc]; ring
        · have hdm := Nat.div_add_mod i br
          have hrr : i % br < br := Nat.mod_lt i hbr0
          have hblt : i / br < wc := by
            rw [Nat.div_lt_iff_lt_mul hbr0]
            calc i < M := hiM
              _ = wc * br := by rw [← hbrwc]; ring
          have he := generate_Hmatrix_entry H0 N wc wr rnd hblt hrr hj
          rw [← hM, ← hbr] at he
          rw [hdm] at he
          rw [he] at hone
          rw [bandVal_eq_one_iff] at hone
          have hdiv : bandPerm N rnd (i / br) j / wr = i % br :=
            Nat.div_eq_of_lt_le hone.1 hone.2
          rw [hdiv]
          omega
      · rintro ⟨b, hb, rfl⟩
        set v := bandPerm N rnd b j with hv
        have hvN : v < N := bandPerm_lt rnd b hj
        have hrr : v / wr < br := by
          rw [Nat.div_lt_iff_lt_mul hwr0]
          calc v < N := hvN
            _ = br * wr := hbrwr.symm
        have hiM : br * b + v / wr < M := by
          have hx : br * (b + 1) = br * b + br := by ring
          have hmono : br * (b + 1) ≤ br * wc := Nat.mul_le_mul_left br (by omega)
          omega
        refine ⟨hiM, ?_⟩
        have he := generate_Hmatrix_entry H0 N wc wr rnd hb hrr hj
        rw [← hM, ← hbr] at he
        rw [he, bandVal_eq_one_iff, ← hv]
        have hdm := Nat.div_add_mod v wr
        have hmod : v % wr < wr := Nat.mod_lt v hwr0
        have hc1 : v / wr * wr = wr * (v / wr) := by ring
        have hc2 : (v / wr + 1) * wr = wr * (v / wr) + wr := by ring
        omega
    rw [himg, Finset.card_image_of_injOn, Finset.card_range]
    intro b1 hb1 b2 hb2 heq
    have h1 : bandPerm N rnd b1 j / wr < br := by
      rw [Nat.div_lt_iff_lt_mul hwr0]
      calc bandPerm N rnd b1 j < N := bandPerm_lt rnd b1 hj
        _ = br * wr := hbrwr.symm
    have h2 : bandPerm N rnd b2 j / wr < br := by
      rw [Nat.div_lt_iff_lt_mul hwr0]
      calc bandPerm N rnd b2 j < N := bandPerm_lt rnd b2 hj
        _ = br * wr := hbrwr.symm
    have := congrArg (· / br) heq
    simpa [Nat.mul_add_div hbr0, Nat.div_eq_of_lt h1, Nat.div_eq_of_lt h2] using this
  · -- row weights
    intro i hi
    have hM0 : 0 < M := by omega
    have hbr0 : 0 < br := by
      rcases Nat.eq_zero_or_pos br with h | h
      · rw [h, Nat.zero_mul] at hbrwc
        omega
      · exact h
    have hN0 : 0 < N := by
      have hpos : 0 < br * wr := Nat.mul_pos hbr0 hwr0
      omega
    set b := i / br with hbdef
    set rr := i % br with hrrdef
    have hrr : rr < br := Nat.mod_lt i hbr0
    have hblt : b < wc := by
      rw [hbdef, Nat.div_lt_iff_lt_mul hbr0]
      calc i < M := hi
        _ = wc * br := by rw [← hbrwc]; ring
    have hdm : br * b + rr = i := Nat.div_add_mod i br
    set p := bandPerm N rnd b with hp
    have hfe : (Finset.range N).filter
        (fun j => generate_Hmatrix H0 N wc wr rnd i j = 1) =
        (Finset.range N).filter (fun j => rr * wr ≤ p j ∧ p j < (rr + 1) * wr) := by
      apply Finset.filter_congr
      intro j hjm
      have hj : j < N := Finset.mem_range.mp hjm
      have he := generate_Hmatrix_entry H0 N wc wr rnd hblt hrr hj
      rw [← hM, ← hbr] at he
      rw [hdm] at he
      rw [he, bandVal_eq_one_iff]
    rw [hfe]
    have hcard : ((Finset.range N).filter
        (fun j => rr * wr ≤ p j ∧ p j < (rr + 1) * wr)).card =
        (((Finset.range N).filter
          (fun j => rr * wr ≤ p j ∧ p j < (rr + 1) * wr)).image p).card := by
      rw [Finset.card_image_of_injOn]
      exact Function.Injective.injOn (bandPerm_inj rnd b)
    rw [hcard]
    have himg2 : ((Finset.range N).filter
        (fun j => rr * wr ≤ p j ∧ p j < (rr + 1) * wr)).image p =
        Finset.Ico (rr * wr) ((rr + 1) * wr) := by
      ext v
      simp only [Finset.mem_image, Finset.mem_filter, Finset.mem_range, Finset.mem_Ico]
      constructor
      · rintro ⟨j, ⟨hj, hc⟩, rfl⟩
        exact hc
      · rintro ⟨hv1, hv2⟩
        have hvN : v < N := by
          have hmono : (rr + 1) * wr ≤ br * wr := Nat.mul_le_mul_right wr (by omega)
          omega
        obtain ⟨k, hk, hpk⟩ := bandPerm_surj rnd b hvN
        exact ⟨k, ⟨hk, by rw [hp, hpk]; exact ⟨hv1, hv2⟩⟩, by rw [hp, hpk]⟩
    rw [himg2, Nat.card_Ico]
    have : (rr + 1) * wr = rr * wr + wr := by ring
    omega

/-- Helper: runs of `generate_Hmatrix` from two arbitrary prior buffers agree
entry-for-entry inside the `M × N` region, and every such entry is 0 or 1.
(No divisibility assumptions.) -/
theorem generate_Hmatrix_pair (H0 H0' : IMat) (N wc wr : Nat) (rnd : Nat → Nat) :
    ∀ i, i < Mdim N wc wr → ∀ k, k < N →
      generate_Hmatrix H0 N wc wr rnd i k = generate_Hmatrix H0' N wc wr rnd i k ∧
      (generate_Hmatrix H0 N wc wr rnd i k = 0 ∨
        generate_Hmatrix H0 N wc wr rnd i k = 1) := by
  set M := Mdim N wc wr with hM
  set br := M / wc with hbr
  have hbrM : br ≤ M := Nat.div_le_self M wc
  have hrel : ∀ (A B : IMat),
      (∀ i, i < M → ∀ k, k < N → A i k = B i k ∧ (A i k = 0 ∨ A i k = 1)) →
      ∀ b, (∀ i, i < M → ∀ k, k < N →
        applyBand br N b (mkPerm N (fun t => rnd ((b - 1) * N + t))) A i k =
          applyBand br N b (mkPerm N (fun t => rnd ((b - 1) * N + t))) B i k ∧
        (applyBand br N b (mkPerm N (fun t => rnd ((b - 1) * N + t))) A i k = 0 ∨
          applyBand br N b (mkPerm N (fun t => rnd ((b - 1) * N + t))) A i k = 1)) := by
    intro A B hAB b i hi k hk
    simp only [applyBand]
    by_cases hc : br * b ≤ i ∧ i < br * (b + 1) ∧ k < N
    · rw [if_pos hc, if_pos hc]
      have hmul : br * (b + 1) = br * b + br := by ring
      have hi' : i - br * b < M := by omega
      have hpk : mkPerm N (fun t => rnd ((b - 1) * N + t)) k < N := mkPerm_lt _ hk
      exact hAB _ hi' _ hpk
    · rw [if_neg hc, if_neg hc]
      exact hAB i hi k hk
  have hbase : ∀ i, i < M → ∀ k, k < N →
      firstBand br wr (clearH M N H0) i k = firstBand br wr (clearH M N H0') i k ∧
      (firstBand br wr (clearH M N H0) i k = 0 ∨
        firstBand br wr (clearH M N H0) i k = 1) := by
    intro i hi k hk
    simp only [firstBand, clearH]
    by_cases hc : i < br ∧ i * wr ≤ k ∧ k < (i + 1) * wr
    · rw [if_pos hc, if_pos hc]
      exact ⟨rfl, Or.inr rfl⟩
    · rw [if_neg hc, if_neg hc, if_pos ⟨hi, hk⟩, if_pos ⟨hi, hk⟩]
      exact ⟨rfl, Or.inl rfl⟩
  have hmain := iterFrom_rel
    (R := fun A B => ∀ i, i < M → ∀ k, k < N → A i k = B i k ∧ (A i k = 0 ∨ A i k = 1))
    (fun Hc b => applyBand br N b (mkPerm N (fun t => rnd ((b - 1) * N + t))) Hc)
    (fun Hc b => applyBand br N b (mkPerm N (fun t => rnd ((b - 1) * N + t))) Hc)
    1 (firstBand br wr (clearH M N H0)) (firstBand br wr (clearH M N H0')) (wc - 1)
    hbase (fun A B b hAB _ _ => hrel A B hAB b)
  exact hmain

/-- Claim C9: the matrix written by `generate_Hmatrix` depends only on the
parameters and the consumed random stream, not on the prior contents of the
buffer: two runs from arbitrary prior buffers agree on every entry of the
`M × N` region, and every such entry is 0 or 1. -/
theorem build_H_buffer_independent (H0 H0' : IMat) (N wc wr : Nat)
    (rnd : Nat → Nat) :
    ∀ i, i < Mdim N wc wr → ∀ k, k < N →
      generate_Hmatrix H0 N wc wr rnd i k = generate_Hmatrix H0' N wc wr rnd i k ∧
      (generate_Hmatrix H0 N wc wr rnd i k = 0 ∨
        generate_Hmatrix H0 N wc wr rnd i k = 1) :=
  generate_Hmatrix_pair H0 H0' N wc wr rnd

theorem build_H_buffer_independent_witness :
    1 < Mdim 4 2 4 ∧ 2 < 4 ∧
      (generate_Hmatrix (fun _ _ => 3) 4 2 4 (fun t => t + 1) 1 2 =
        generate_Hmatrix (fun _ _ => -7) 4 2 4 (fun t => t + 1) 1 2 ∧
      (generate_Hmatrix (fun _ _ => 3) 4 2 4 (fun t => t + 1) 1 2 = 0 ∨
        generate_Hmatrix (fun _ _ => 3) 4 2 4 (fun t => t + 1) 1 2 = 1)) :=
  ⟨by decide, by decide,
    build_H_buffer_independent (fun _ _ => 3) (fun _ _ => -7) 4 2 4 (fun t => t + 1)
      1 (by decide) 2 (by decide)⟩

/-- Claim C6 (amended): `generate_Hmatrix` performs no dimension validation and
has no error path: for every input, divisible or not, it runs to completion
and fills the `M × N` region with 0/1 values.  (There is no
`InvalidDimensions` failure in the code.) -/
theorem build_H_never_fails (H0 : IMat) (N wc wr : Nat) (rnd : Nat → Nat) :
    ∀ i, i < Mdim N wc wr → ∀ k, k < N →
      generate_Hmatrix H0 N wc wr rnd i k = 0 ∨
      generate_Hmatrix H0 N wc wr rnd i k = 1 :=
  fun i hi k hk => ((generate_Hmatrix_pair H0 H0 N wc wr rnd) i hi k hk).2

theorem build_H_never_fails_witness :
    0 < Mdim 5 2 3 ∧ 4 < 5 ∧
      (generate_Hmatrix (fun _ _ => 37) 5 2 3 (fun _ => 0) 0 4 = 0 ∨
        generate_Hmatrix (fun _ _ => 37) 5 2 3 (fun _ => 0) 0 4 = 1) :=
  ⟨by decide, by decide,
    build_H_never_fails (fun _ _ => 37) 5 2 3 (fun _ => 0) 0 (by decide) 4 (by decide)⟩

/-- Claim C6 (counterexample): at `N = 5, wc = 2, wr = 3` (`wr` does not divide
`N`) the source `generate_Hmatrix` does not fail: it completes and returns a
0/1 matrix — which is not regular (column 4 has weight 0, not `wc = 2`), so
the claimed `InvalidDimensions` error never happens. -/
theorem build_H_no_invalid_dimensions_error :
    (∀ i, i < Mdim 5 2 3 → ∀ k, k < 5 →
      generate_Hmatrix (fun _ _ => 37) 5 2 3 (fun _ => 0) i k = 0 ∨
      generate_Hmatrix (fun _ _ => 37) 5 2 3 (fun _ => 0) i k = 1) ∧
    ((Finset.range (Mdim 5 2 3)).filter
      (fun i => generate_Hmatrix (fun _ _ => 37) 5 2 3 (fun _ => 0) i 4 = 1)).card = 0 := by
  constructor
  · decide
  · decide

theorem build_H_regular_witness :
    2 ≤ 2 ∧ 2 < 3 ∧ 3 ∣ 6 ∧ 2 ∣ Mdim 6 2 3 ∧
      ((∀ j < 6, ((Finset.range (Mdim 6 2 3)).filter
          (fun i => generate_Hmatrix (fun _ _ => 5) 6 2 3 (fun t => t * t) i j = 1)).card = 2) ∧
       (∀ i < Mdim 6 2 3, ((Finset.range 6).filter
          (fun j => generate_Hmatrix (fun _ _ => 5) 6 2 3 (fun t => t * t) i j = 1)).card = 3)) :=
  ⟨by decide, by decide, ⟨2, by decide⟩, ⟨2, by decide⟩,
    build_H_regular (fun _ _ => 5) 6 2 3 (fun t => t * t)
      (by decide) (by decide) ⟨2, by decide⟩ ⟨2, by decide⟩⟩

/-- Claim C10: `count_floop` reads only the first `wc` ones of every column: two
matrices whose columns each hold at least `wc` ones and agree on those lists
give the same count. -/
theorem count_floop_first_wc_ones (H1 H2 : Mat) (N wc wr : Nat)
    (hw1 : ∀ j, j < N → wc ≤ ((List.range (Mdim N wc wr)).filter (fun i => H1 i j)).length)
    (hw2 : ∀ j, j < N → wc ≤ ((List.range (Mdim N wc wr)).filter (fun i => H2 i j)).length)
    (hagree : ∀ j, j < N →
      var_nodes H1 (Mdim N wc wr) wc j = var_nodes H2 (Mdim N wc wr) wc j) :
    count_floop H1 N wc wr = count_floop H2 N wc wr := by
  unfold count_floop
  apply Finset.sum_congr rfl
  intro i hi
  apply Finset.sum_congr rfl
  intro j hj
  have hiN : i < N := by
    have := Finset.mem_range.mp hi
    omega
  have hjN : j < N := (Finset.mem_Ico.mp hj).2
  unfold sharedCount
  rw [hagree i hiN, hagree j hjN]

theorem count_floop_first_wc_ones_witness :
    (∀ j, j < 2 → 1 ≤ ((List.range (Mdim 2 1 1)).filter
      (fun i => (fun i' j' => decide (i' = 0 ∨ j' = 9)) i j)).length) ∧
    (∀ j, j < 2 → 1 ≤ ((List.range (Mdim 2 1 1)).filter
      (fun i => (fun _ _ => true) i j)).length) ∧
    (∀ j, j < 2 → var_nodes (fun i' j' => decide (i' = 0 ∨ j' = 9)) (Mdim 2 1 1) 1 j =
      var_nodes (fun _ _ => true) (Mdim 2 1 1) 1 j) ∧
    count_floop (fun i' j' => decide (i' = 0 ∨ j' = 9)) 2 1 1 =
      count_floop (fun _ _ => true) 2 1 1 :=
  ⟨by decide, by decide, by decide,
    count_floop_first_wc_ones (fun i' j' => decide (i' = 0 ∨ j' = 9)) (fun _ _ => true)
      2 1 1 (by decide) (by decide) (by decide)⟩

theorem length_filter_range (M : Nat) (p : Nat → Bool) :
    ((List.range M).filter p).length =
      ((Finset.range M).filter (fun r => p r = true)).card := by
  have h1 : Finset.range M = (List.range M).toFinset := by
    ext x
    simp
  rw [h1, ← List.toFinset_filter,
    List.toFinset_card_of_nodup ((List.nodup_range M).filter p)]

theorem sum_map_indicator (t : List Nat) (p : Nat → Bool)
    (f : Nat → Nat) (hf : ∀ a, f a = if p a then 1 else 0) :
    (t.map f).sum = (t.filter p).length := by
  induction t with
  | nil => rfl
  | cons a l ih =>
    rw [List.map_cons, List.sum_cons, ih, List.filter_cons]
    rw [hf a]
    by_cases hp : p a
    · simp only [hp, if_true, List.length_cons]
      omega
    · simp [hp]

/-- With exact column weights, `shared` counts the rows with a one in both
columns. -/
theorem sharedCount_eq_card (H : Mat) (M wc : Nat) {i j : Nat}
    (hi : ((List.range M).filter (fun r => H r i)).length = wc)
    (hj : ((List.range M).filter (fun r => H r j)).length = wc) :
    sharedCount H M wc i j =
      ((Finset.range M).filter (fun r => H r i = true ∧ H r j = true)).card := by
  have htake : ∀ (l : List Nat), l.length = wc → l.take wc = l := by
    intro l hl
    exact List.take_of_length_le (le_of_eq hl)
  have hvi : var_nodes H M wc i = (List.range M).filter (fun r => H r i) := by
    unfold var_nodes
    exact htake _ hi
  have hvj : var_nodes H M wc j = (List.range M).filter (fun r => H r j) := by
    unfold var_nodes
    exact htake _ hj
  have hnodupj : ((List.range M).filter (fun r => H r j)).Nodup :=
    (List.nodup_range M).filter _
  unfold sharedCount
  rw [hvi, hvj]
  rw [sum_map_indicator _ (fun a => a ∈ (List.range M).filter (fun r => H r j)) _ ?_]
  · rw [List.filter_filter]
    have hfc : (List.range M).filter
        (fun a => decide (a ∈ (List.range M).filter (fun r' => H r' j)) && H a i) =
        (List.range M).filter (fun r => decide (H r i = true ∧ H r j = true)) := by
      apply List.filter_congr
      intro r hr
      by_cases h1 : H r i <;> by_cases h2 : H r j <;>
        simp [h1, h2, List.mem_filter, hr]
    rw [hfc, length_filter_range]
    simp
  · intro a
    by_cases hm : a ∈ (List.range M).filter (fun r => H r j)
    · simp [hm, List.count_eq_one_of_mem hnodupj hm]
    · simp [hm, List.count_eq_zero_of_not_mem hm]

/-- Filtering `range M` through a permutation that preserves `[0, M)` leaves
the count unchanged. -/
theorem card_filter_perm (M : Nat) (σ : Equiv.Perm Nat)
    (hσ : ∀ r, r < M ↔ σ r < M) (Q : Nat → Prop) [DecidablePred Q] :
    ((Finset.range M).filter (fun r => Q (σ r))).card =
      ((Finset.range M).filter Q).card := by
  apply Finset.card_nbij' (i := fun r => σ r) (j := fun r => σ.symm r)
  · intro a ha
    simp only [Finset.mem_coe, Finset.mem_filter, Finset.mem_range] at ha ⊢
    exact ⟨(hσ a).mp ha.1, ha.2⟩
  · intro a ha
    simp only [Finset.mem_coe, Finset.mem_filter, Finset.mem_range] at ha ⊢
    constructor
    · have := (hσ (σ.symm a)).mpr
      rw [Equiv.apply_symm_apply] at this
      exact this ha.1
    · rw [Equiv.apply_symm_apply]
      exact ha.2
  · intro a _
    simp
  · intro a _
    simp

theorem sum_pairs_extend (N : Nat) (h : Nat → Nat → Nat) :
    (∑ i ∈ Finset.range (N - 1), ∑ j ∈ Finset.Ico (i + 1) N, h i j) =
    ∑ i ∈ Finset.range N, ∑ j ∈ Finset.Ico (i + 1) N, h i j := by
  rcases Nat.eq_zero_or_pos N with rfl | hN
  · rfl
  · have h2 := Finset.sum_range_succ (fun i => ∑ j ∈ Finset.Ico (i + 1) N, h i j) (N - 1)
    have h3 : (N - 1) + 1 = N := by omega
    rw [h3] at h2
    rw [h2, Finset.Ico_self, Finset.sum_empty, Nat.add_zero]

theorem sum_pairs_as_product (N : Nat) (h : Nat → Nat → Nat) :
    (∑ i ∈ Finset.range N, ∑ j ∈ Finset.Ico (i + 1) N, h i j) =
    ∑ p ∈ (Finset.range N ×ˢ Finset.range N).filter (fun p => p.1 < p.2),
      h p.1 p.2 := by
  rw [Finset.sum_filter, Finset.sum_product]
  apply Finset.sum_congr rfl
  intro i _
  have hico : Finset.Ico (i + 1) N = (Finset.range N).filter (fun j => i < j) := by
    ext x
    simp only [Finset.mem_Ico, Finset.mem_filter, Finset.mem_range]
    omega
  rw [hico, Finset.sum_filter]

theorem sum_offDiag_twice (N : Nat) (h : Nat → Nat → Nat)
    (hsym : ∀ i j, i < N → j < N → h i j = h j i) :
    ∑ p ∈ (Finset.range N).offDiag, h p.1 p.2 =
    2 * ∑ p ∈ (Finset.range N ×ˢ Finset.range N).filter (fun p => p.1 < p.2),
      h p.1 p.2 := by
  have hsplit : (Finset.range N).offDiag =
      ((Finset.range N ×ˢ Finset.range N).filter (fun p => p.1 < p.2)) ∪
      ((Finset.range N ×ˢ Finset.range N).filter (fun p => p.2 < p.1)) := by
    ext p
    simp only [Finset.mem_offDiag, Finset.mem_union, Finset.mem_filter,
      Finset.mem_product, Finset.mem_range]
    omega
  have hdisj : Disjoint
      ((Finset.range N ×ˢ Finset.range N).filter (fun p => p.1 < p.2))
      ((Finset.range N ×ˢ Finset.range N).filter (fun p => p.2 < p.1)) := by
    rw [Finset.disjoint_left]
    intro p hp1 hp2
    simp only [Finset.mem_filter] at hp1 hp2
    omega
  rw [hsplit, Finset.sum_union hdisj]
  have hswap : ∑ p ∈ (Finset.range N ×ˢ Finset.range N).filter
        (fun p => p.2 < p.1), h p.1 p.2 =
      ∑ p ∈ (Finset.range N ×ˢ Finset.range N).filter
        (fun p => p.1 < p.2), h p.1 p.2 := by
    apply Finset.sum_nbij' (i := fun p => (p.2, p.1)) (j := fun p => (p.2, p.1))
    · intro p hp
      simp only [Finset.mem_coe, Finset.mem_filter, Finset.mem_product] at hp ⊢
      exact ⟨⟨hp.1.2, hp.1.1⟩, hp.2⟩
    · intro p hp
      simp only [Finset.mem_coe, Finset.mem_filter, Finset.mem_product] at hp ⊢
      exact ⟨⟨hp.1.2, hp.1.1⟩, hp.2⟩
    · intro p _
      rfl
    · intro p _
      rfl
    · intro p hp
      simp only [Finset.mem_filter, Finset.mem_product, Finset.mem_range] at hp
      exact hsym p.1 p.2 hp.1.1 hp.1.2
  rw [hswap]
  omega

theorem sum_offDiag_perm (N : Nat) (π : Equiv.Perm Nat)
    (hπ : ∀ j, j < N ↔ π j < N) (h : Nat → Nat → Nat) :
    ∑ p ∈ (Finset.range N).offDiag, h (π p.1) (π p.2) =
    ∑ p ∈ (Finset.range N).offDiag, h p.1 p.2 := by
  apply Finset.sum_nbij' (i := fun p => (π p.1, π p.2))
    (j := fun p => (π.symm p.1, π.symm p.2))
  · intro p hp
    simp only [Finset.mem_coe, Finset.mem_offDiag, Finset.mem_range] at hp ⊢
    refine ⟨(hπ p.1).mp hp.1, (hπ p.2).mp hp.2.1, ?_⟩
    intro hc
    exact hp.2.2 (π.injective hc)
  · intro p hp
    simp only [Finset.mem_coe, Finset.mem_offDiag, Finset.mem_range] at hp ⊢
    have e1 : π (π.symm p.1) = p.1 := Equiv.apply_symm_apply π p.1
    have e2 : π (π.symm p.2) = p.2 := Equiv.apply_symm_apply π p.2
    refine ⟨(hπ (π.symm p.1)).mpr (by rw [e1]; exact hp.1),
      (hπ (π.symm p.2)).mpr (by rw [e2]; exact hp.2.1), ?_⟩
    intro hc
    apply hp.2.2
    rw [← e1, ← e2, hc]
  · intro p _
    simp
  · intro p _
    simp
  · intro p _
    rfl

/-- Claim C8: with exact column weight `wc`, `count_floop` is invariant under
any permutation of the rows of `H` and any permutation of the columns. -/
theorem count_floop_perm_invariant (H : Mat) (N wc wr : Nat)
    (σ π : Equiv.Perm Nat)
    (hcolw : ∀ j, j < N →
      ((List.range (Mdim N wc wr)).filter (fun i => H i j)).length = wc)
    (hσ : ∀ i, i < Mdim N wc wr ↔ σ i < Mdim N wc wr)
    (hπ : ∀ j, j < N ↔ π j < N) :
    count_floop (fun i j => H (σ i) j) N wc wr = count_floop H N wc wr ∧
    count_floop (fun i j => H i (π j)) N wc wr = count_floop H N wc wr := by
  set M := Mdim N wc wr with hM
  have hcolw' : ∀ j, j < N →
      ((List.range M).filter (fun i => H (σ i) j)).length = wc := by
    intro j hj
    rw [length_filter_range, card_filter_perm M σ hσ (fun r => H r j = true),
      ← length_filter_range]
    exact hcolw j hj
  have hshared : ∀ i j, i < N → j < N →
      sharedCount (fun i' j' => H (σ i') j') M wc i j = sharedCount H M wc i j := by
    intro i j hi hj
    rw [sharedCount_eq_card _ _ _ (hcolw' i hi) (hcolw' j hj),
      sharedCount_eq_card _ _ _ (hcolw i hi) (hcolw j hj)]
    exact card_filter_perm M σ hσ (fun r => H r i = true ∧ H r j = true)
  have hsym : ∀ i j, i < N → j < N →
      sharedCount H M wc i j = sharedCount H M wc j i := by
    intro i j hi hj
    rw [sharedCount_eq_card _ _ _ (hcolw i hi) (hcolw j hj),
      sharedCount_eq_card _ _ _ (hcolw j hj) (hcolw i hi)]
    congr 1
    apply Finset.filter_congr
    intro r _
    constructor
    · rintro ⟨ha, hb⟩
      exact ⟨hb, ha⟩
    · rintro ⟨ha, hb⟩
      exact ⟨hb, ha⟩
  constructor
  · -- row permutation
    unfold count_floop
    apply Finset.sum_congr rfl
    intro i hi
    apply Finset.sum_congr rfl
    intro j hj
    have hiN : i < N := by
      have := Finset.mem_range.mp hi
      omega
    have hjN : j < N := (Finset.mem_Ico.mp hj).2
    rw [← hM]
    rw [hshared i j hiN hjN]
  · -- column permutation
    unfold count_floop
    rw [← hM]
    have hred : ∀ i j, sharedCount (fun i' j' => H i' (π j')) M wc i j =
        sharedCount H M wc (π i) (π j) := by
      intro i j
      rfl
    have hg : ∀ i j, pairContrib (sharedCount (fun i' j' => H i' (π j')) M wc i j) =
        pairContrib (sharedCount H M wc (π i) (π j)) := by
      intro i j
      rw [hred]
    calc
      (∑ i ∈ Finset.range (N - 1), ∑ j ∈ Finset.Ico (i + 1) N,
          pairContrib (sharedCount (fun i' j' => H i' (π j')) M wc i j))
        = ∑ i ∈ Finset.range (N - 1), ∑ j ∈ Finset.Ico (i + 1) N,
            pairContrib (sharedCount H M wc (π i) (π j)) := by
          apply Finset.sum_congr rfl
          intro i _
          exact Finset.sum_congr rfl (fun j _ => hg i j)
      _ = ∑ i ∈ Finset.range (N - 1), ∑ j ∈ Finset.Ico (i + 1) N,
            pairContrib (sharedCount H M wc i j) := by
          have hgsym : ∀ i j, i < N → j < N →
              pairContrib (sharedCount H M wc i j) =
              pairContrib (sharedCount H M wc j i) := by
            intro i j hi hj
            rw [hsym i j hi hj]
          have hgsym' : ∀ i j, i < N → j < N →
              pairContrib (sharedCount H M wc (π i) (π j)) =
              pairContrib (sharedCount H M wc (π j) (π i)) := by
            intro i j hi hj
            exact hgsym (π i) (π j) ((hπ i).mp hi) ((hπ j).mp hj)
          have e1 := sum_pairs_extend N
            (fun i j => pairContrib (sharedCount H M wc (π i) (π j)))
          have e2 := sum_pairs_as_product N
            (fun i j => pairContrib (sharedCount H M wc (π i) (π j)))
          have e3 := sum_pairs_extend N
            (fun i j => pairContrib (sharedCount H M wc i j))
          have e4 := sum_pairs_as_product N
            (fun i j => pairContrib (sharedCount H M wc i j))
          have d1 := sum_offDiag_twice N
            (fun i j => pairContrib (sharedCount H M wc (π i) (π j))) hgsym'
          have d2 := sum_offDiag_twice N
            (fun i j => pairContrib (sharedCount H M wc i j)) hgsym
          have dperm := sum_offDiag_perm N π hπ
            (fun i j => pairContrib (sharedCount H M wc i j))
          rw [e1, e2, e3, e4]
          have hfinal : 2 * (∑ p ∈ (Finset.range N ×ˢ Finset.range N).filter
                (fun p => p.1 < p.2),
                pairContrib (sharedCount H M wc (π p.1) (π p.2))) =
              2 * ∑ p ∈ (Finset.range N ×ˢ Finset.range N).filter
                (fun p => p.1 < p.2),
                pairContrib (sharedCount H M wc p.1 p.2) := by
            rw [← d1, ← d2, dperm]
          omega

theorem swap01_preserves_lt (M : Nat) (hM : 2 ≤ M) :
    ∀ i, i < M ↔ Equiv.swap 0 1 i < M := by
  intro i
  by_cases h0 : i = 0
  · subst h0
    rw [Equiv.swap_apply_left]
    omega
  · by_cases h1 : i = 1
    · subst h1
      rw [Equiv.swap_apply_right]
      omega
    · rw [Equiv.swap_apply_of_ne_of_ne h0 h1]

theorem count_floop_perm_invariant_witness :
    (∀ j, j < 2 → ((List.range (Mdim 2 2 2)).filter
      (fun i => (fun _ _ => true : Mat) i j)).length = 2) ∧
    (count_floop (fun i j => (fun _ _ => true : Mat) (Equiv.swap 0 1 i) j) 2 2 2 =
      count_floop (fun _ _ => true : Mat) 2 2 2 ∧
     count_floop (fun i j => (fun _ _ => true : Mat) i (Equiv.swap 0 1 j)) 2 2 2 =
      count_floop (fun _ _ => true : Mat) 2 2 2) :=
  ⟨by decide,
    count_floop_perm_invariant (fun _ _ => true) 2 2 2 (Equiv.swap 0 1) (Equiv.swap 0 1)
      (by decide) (swap01_preserves_lt (Mdim 2 2 2) (by decide))
      (swap01_preserves_lt 2 (by decide))⟩

theorem factorial_succ (n : Nat) : factorial (n + 1) = factorial n * (n + 1) := by
  unfold factorial
  rw [iterFrom_last]
  congr 1
  omega

theorem factorial_pos (n : Nat) : 0 < factorial n := by
  induction n with
  | zero => decide
  | succ m ih =>
    rw [factorial_succ]
    exact Nat.mul_pos ih (by omega)

/-- The C contribution `factorial(s)/(2*factorial(s-2))` equals
`s*(s-1)/2` for `s ≥ 2` (the division is exact). -/
theorem pairContrib_eq {s : Nat} (hs : 2 ≤ s) : pairContrib s = s * (s - 1) / 2 := by
  obtain ⟨k, rfl⟩ : ∃ k, s = k + 2 := ⟨s - 2, by omega⟩
  unfold pairContrib
  rw [if_pos hs]
  have hsub : k + 2 - 2 = k := by omega
  rw [hsub]
  have hfact : factorial (k + 2) = factorial k * ((k + 1) * (k + 2)) := by
    rw [factorial_succ, factorial_succ]
    ring
  have heven : (k + 1) * (k + 2) = 2 * ((k + 1) * (k + 2) / 2) := by
    rcases Nat.even_or_odd k with he | ho
    · obtain ⟨t, rfl⟩ := he
      have h1 : (t + t + 1) * (t + t + 2) = 2 * ((t + t + 1) * (t + 1)) := by ring
      rw [h1, Nat.mul_div_cancel_left _ (by omega : 0 < 2)]
    · obtain ⟨t, rfl⟩ := ho
      have h1 : (2 * t + 1 + 1) * (2 * t + 1 + 2) = 2 * ((t + 1) * (2 * t + 3)) := by
        ring
      rw [h1, Nat.mul_div_cancel_left _ (by omega : 0 < 2)]
  have hgoal : factorial (k + 2) = ((k + 2) * (k + 2 - 1) / 2) * (2 * factorial k) := by
    rw [hfact]
    have h2 : (k + 2) * (k + 2 - 1) = (k + 1) * (k + 2) := by
      have : k + 2 - 1 = k + 1 := by omega
      rw [this]
      ring
    rw [h2, heven]
    have h3 : 2 * ((k + 1) * (k + 2) / 2) / 2 = (k + 1) * (k + 2) / 2 :=
      Nat.mul_div_cancel_left _ (by omega)
    rw [h3]
    ring
  rw [hgoal, Nat.mul_div_cancel _ (Nat.mul_pos (by omega) (factorial_pos k))]

/-- Claim C7 (code evaluation): on the all-ones matrix with `M ≥ wc ≥ 2` every
pair of columns shares exactly `wc` check nodes, so the mathematical value of
`count_floop` is `C(N,2) * C(wc,2)` — instantiated below at
`N = 65537, wc = wr = 2`, where it exceeds `2^31 - 1`, the largest value the
C `int` accumulator/return type can hold. -/
theorem count_floop_allones (N wc wr : Nat) (hM : wc ≤ Mdim N wc wr)
    (hwc : 2 ≤ wc) :
    count_floop (fun _ _ => true) N wc wr =
      (N * (N - 1) / 2) * (wc * (wc - 1) / 2) := by
  set M := Mdim N wc wr with hMdef
  have hvn : ∀ j, var_nodes (fun _ _ => true) M wc j = List.range wc := by
    intro j
    unfold var_nodes
    rw [List.filter_true, List.take_range]
    congr 1
    omega
  have hsc : ∀ i j, sharedCount (fun _ _ => true) M wc i j = wc := by
    intro i j
    unfold sharedCount
    rw [hvn, hvn]
    have hmap : (List.range wc).map (fun a => (List.range wc).count a) =
        (List.range wc).map (fun _ => 1) := by
      apply List.map_congr_left
      intro a ha
      exact List.count_eq_one_of_mem (List.nodup_range wc) ha
    rw [hmap]
    have : ∀ n : Nat, ((List.range n).map (fun _ => 1)).sum = n := by
      intro n
      induction n with
      | zero => rfl
      | succ m ih =>
        rw [List.range_succ, List.map_append, List.sum_append, ih]
        rfl
    exact this wc
  unfold count_floop
  rw [← hMdef]
  have hterm : ∀ i j, pairContrib (sharedCount (fun _ _ => true) M wc i j) =
      wc * (wc - 1) / 2 := by
    intro i j
    rw [hsc, pairContrib_eq hwc]
  calc
    (∑ i ∈ Finset.range (N - 1), ∑ j ∈ Finset.Ico (i + 1) N,
        pairContrib (sharedCount (fun _ _ => true) M wc i j))
      = ∑ i ∈ Finset.range (N - 1), ∑ j ∈ Finset.Ico (i + 1) N,
          wc * (wc - 1) / 2 := by
        apply Finset.sum_congr rfl
        intro i _
        exact Finset.sum_congr rfl (fun j _ => hterm i j)
    _ = ∑ i ∈ Finset.range (N - 1), (N - (i + 1)) * (wc * (wc - 1) / 2) := by
        apply Finset.sum_congr rfl
        intro i _
        rw [Finset.sum_const, Nat.card_Ico, smul_eq_mul]
    _ = (∑ i ∈ Finset.range (N - 1), (N - (i + 1))) * (wc * (wc - 1) / 2) := by
        rw [Finset.sum_mul]
    _ = (N * (N - 1) / 2) * (wc * (wc - 1) / 2) := by
        congr 1
        have hrefl := Finset.sum_range_reflect (fun i => N - (i + 1)) (N - 1)
        have hcongr : ∀ j ∈ Finset.range (N - 1),
            N - ((N - 1 - 1 - j) + 1) = j + 1 := by
          intro j hj
          have := Finset.mem_range.mp hj
          omega
        rw [← hrefl, Finset.sum_congr rfl hcongr]
        have hgauss := Finset.sum_range_id_mul_two (N - 1)
        have hsplit : ∑ j ∈ Finset.range (N - 1), (j + 1) =
            (∑ j ∈ Finset.range (N - 1), j) + (N - 1) := by
          rw [Finset.sum_add_distrib, Finset.sum_const, Finset.card_range,
            smul_eq_mul, Nat.mul_one]
        rw [hsplit]
        have h2 : ((∑ j ∈ Finset.range (N - 1), j) + (N - 1)) * 2 = N * (N - 1) := by
          rcases Nat.eq_zero_or_pos N with rfl | hN
          · simp
          · rw [Nat.add_mul, hgauss]
            have : N - 1 - 1 = N - 2 := by omega
            rw [this]
            cases N with
            | zero => omega
            | succ m =>
              cases m with
              | zero => simp
              | succ l =>
                have e1 : l + 1 + 1 - 1 = l + 1 := by omega
                have e2 : l + 1 + 1 - 2 = l := by omega
                rw [e1, e2]
                ring
        omega

theorem count_floop_allones_witness :
    2 ≤ Mdim 65537 2 2 ∧ 2 ≤ 2 ∧
      count_floop (fun _ _ => true) 65537 2 2 = 2147516416 ∧
      2147483647 < 2147516416 :=
  ⟨by decide, by decide,
    (count_floop_allones 65537 2 2 (by decide) (by decide)).trans (by decide),
    by decide⟩

theorem xor_fold_all_false (g : Nat → Bool) (m : Nat)
    (hg : ∀ j, j < m → g j = false) :
    iterFrom (fun acc j => xor acc (g j)) 0 false m = false := by
  induction m with
  | zero => rfl
  | succ t ih =>
    rw [iterFrom_last, ih (fun j hj => hg j (by omega))]
    rw [Nat.zero_add, hg t (by omega)]
    rfl

theorem xor_fold_single (g : Nat → Bool) (m i : Nat) (hi : i < m) (v : Bool)
    (hg : ∀ j, j < m → g j = if j = i then v else false) :
    iterFrom (fun acc j => xor acc (g j)) 0 false m = v := by
  induction m with
  | zero => omega
  | succ t ih =>
    rw [iterFrom_last, Nat.zero_add]
    by_cases hit : i = t
    · rw [xor_fold_all_false g t (fun j hj => by
        rw [hg j (by omega), if_neg (by omega)])]
      rw [hg t (by omega), if_pos hit.symm]
      cases v <;> rfl
    · rw [ih (by omega) (fun j hj => hg j (by omega))]
      rw [hg t (by omega), if_neg (by omega)]
      cases v <;> rfl

/-- Claim C4: if the last `K` columns of `G` form the identity, then the
encoder writes the information bits unchanged into codeword positions
`N-K … N-1`, and the decoder's info extraction `inf[i] = ecc[i + (N-K)]`
applied to that codeword recovers them exactly. -/
theorem encode_systematic (inf : Nat → Bool) (G : Mat) (N K : Nat)
    (hKN : K ≤ N)
    (hid : ∀ a, a < K → ∀ b, b < K → G a (N - K + b) = decide (a = b)) :
    ∀ i, i < K →
      ldpc_encode inf G N K (N - K + i) = inf i ∧
      (fun j => if ldpc_encode inf G N K j then (1 : Int) else 0) (i + (N - K)) =
        (if inf i then (1 : Int) else 0) := by
  intro i hi
  have henc : ldpc_encode inf G N K (N - K + i) = inf i := by
    unfold ldpc_encode
    apply xor_fold_single _ K i hi
    intro j hj
    rw [hid j hj i hi]
    by_cases hji : j = i
    · subst hji
      simp
    · simp [hji]
  refine ⟨henc, ?_⟩
  have hcomm : i + (N - K) = N - K + i := by omega
  simp only [hcomm, henc]

theorem encode_systematic_witness :
    1 ≤ 3 ∧
    (∀ a, a < 1 → ∀ b, b < 1 →
      (fun x y => decide (x = 0 ∧ (y = 0 ∨ y = 2)) : Mat) a (3 - 1 + b) =
        decide (a = b)) ∧
    (ldpc_encode (fun _ => true) (fun x y => decide (x = 0 ∧ (y = 0 ∨ y = 2))) 3 1
        (3 - 1 + 0) = true ∧
      (fun j => if ldpc_encode (fun _ => true)
          (fun x y => decide (x = 0 ∧ (y = 0 ∨ y = 2))) 3 1 j then (1 : Int) else 0)
        (0 + (3 - 1)) = (if (true : Bool) then (1 : Int) else 0)) :=
  ⟨by decide, by decide,
    encode_systematic (fun _ => true) (fun x y => decide (x = 0 ∧ (y = 0 ∨ y = 2)))
      3 1 (by decide) (by decide) 0 (by decide)⟩

/-- Claim C5 (amended): with `max_iter = 0` the SPA loop body never runs, so
`ldpc_decode_spa` leaves the caller's `ecc` buffer untouched and extracts
`inf` from that prior content; the LLR-only hard decision is never computed. -/
theorem decode_spa_zero_iters (spf : ℚ → ℚ) (LLR : Nat → ℚ) (ecc0 : Nat → Int)
    (H : Mat) (M N K : Nat) :
    ldpc_decode_spa spf LLR ecc0 H M N K 0 =
      (ecc0, fun i => ecc0 (i + (N - K))) := rfl

/-- Claim C5 (counterexample): the claim "max_iter = 0 returns the LLR-only
hard decision" fails: with `N = 1`, `LLR 0 = 5 ≥ 0`, and a zeroed caller
buffer, the returned codeword bit is `0`, not the hard decision `1`. -/
theorem decode_spa_zero_iters_counterexample :
    ¬ (∀ j, j < 1 →
      (ldpc_decode_spa id (fun _ => 5) (fun _ => 0) (fun _ _ => false) 0 1 1 0).1 j =
        if (0 : ℚ) ≤ (fun _ => (5 : ℚ)) j then 1 else 0) := by
  intro h
  have h0 := h 0 (by omega)
  have hred : (ldpc_decode_spa id (fun _ => 5) (fun _ => 0) (fun _ _ => false)
      0 1 1 0).1 0 = 0 := rfl
  rw [hred] at h0
  norm_num at h0

theorem stepsA_succ (H : Mat) (M N t : Nat) :
    stepsA H M N (t + 1) = phaseAstep M N (stepsA H M N t) t := by
  unfold stepsA
  rw [iterFrom_last, Nat.zero_add]

theorem stepsB_succ (H : Mat) (M N t : Nat) :
    stepsB H M N (t + 1) = phaseBstep M N (stepsB H M N t) (2 * M + t) := by
  unfold stepsB
  rw [iterFrom_last]

/-! ### Elementary facts about the primitives -/

theorem swapCols_other (X : Mat) (a b c : Nat) (hca : c ≠ a) (hcb : c ≠ b)
    (i : Nat) : swapCols X a b i c = X i c := by
  rw [swapCols_apply, if_neg hca, if_neg hcb]

theorem swapRows_col_const (X : Mat) (a b j : Nat) (h : X a j = X b j)
    (i : Nat) : swapRows X a b i j = X i j := by
  rw [swapRows_apply]
  by_cases h1 : i = a
  · rw [if_pos h1, h1, h]
  · rw [if_neg h1]
    by_cases h2 : i = b
    · rw [if_pos h2, h2, h]
    · rw [if_neg h2]

theorem elimAll_pivot_row (N : Nat) (X : Mat) (p j k : Nat) :
    elimAll N X p j p k = X p k := by
  rw [elimAll_apply]
  rw [if_neg (by tauto)]

theorem elimAll_false_col (N : Nat) (X : Mat) (p j c : Nat)
    (hc : X p c = false) (i : Nat) : elimAll N X p j i c = X i c := by
  rw [elimAll_apply]
  split
  · rw [hc, Bool.xor_false]
  · rfl

theorem elimAll_skip_row (N : Nat) (X : Mat) (p j i : Nat)
    (h : X i j = false) (k : Nat) : elimAll N X p j i k = X i k := by
  rw [elimAll_apply]
  rw [if_neg (by
    rintro ⟨-, -, hcon⟩
    rw [h] at hcon
    exact Bool.false_ne_true hcon)]

theorem elimAll_settles (N : Nat) (X : Mat) (p j : Nat) (hp : X p j = true) :
    ∀ i, i < N → elimAll N X p j i j = decide (i = p) := by
  intro i hi
  by_cases hip : i = p
  · rw [hip, elimAll_pivot_row, hp]
    simp
  · rw [elimAll_apply]
    by_cases hx : X i j = true
    · rw [if_pos ⟨hi, hip, hx⟩, hx, hp]
      simp [hip]
    · rw [if_neg (by tauto)]
      simp only [Bool.not_eq_true] at hx
      rw [hx]
      simp [hip]

theorem even_card_filter_xor (Wd : Nat) (A B C : Nat → Bool)
    (hA : Even (((Finset.range Wd).filter (fun p => A p = true ∧ C p = true)).card))
    (hB : Even (((Finset.range Wd).filter (fun p => B p = true ∧ C p = true)).card)) :
    Even (((Finset.range Wd).filter
      (fun p => xor (A p) (B p) = true ∧ C p = true)).card) := by
  set SA := (Finset.range Wd).filter (fun p => A p = true ∧ C p = true) with hSA
  set SB := (Finset.range Wd).filter (fun p => B p = true ∧ C p = true) with hSB
  have hset : (Finset.range Wd).filter (fun p => xor (A p) (B p) = true ∧ C p = true) =
      (SA ∪ SB) \ (SA ∩ SB) := by
    ext p
    simp only [hSA, hSB, Finset.mem_sdiff, Finset.mem_union, Finset.mem_inter,
      Finset.mem_filter, Finset.mem_range]
    cases hA' : A p <;> cases hB' : B p <;> cases hC' : C p <;> simp
  rw [hset]
  have hsub : SA ∩ SB ⊆ SA ∪ SB :=
    le_trans (Finset.inter_subset_left) (Finset.subset_union_left)
  have hcard := Finset.card_union_add_card_inter SA SB
  rw [Finset.card_sdiff hsub]
  rw [Nat.even_iff] at hA hB ⊢
  have hle : (SA ∩ SB).card ≤ (SA ∪ SB).card := Finset.card_le_card hsub
  omega

theorem swap_preserves_lt (a b Wd : Nat) (ha : a < Wd) (hb : b < Wd) :
    ∀ p, p < Wd ↔ Equiv.swap a b p < Wd := by
  intro p
  by_cases h0 : p = a
  · subst h0
    rw [Equiv.swap_apply_left]
    omega
  · by_cases h1 : p = b
    · subst h1
      rw [Equiv.swap_apply_right]
      omega
    · rw [Equiv.swap_apply_of_ne_of_ne h0 h1]

theorem swapCols_as_swap (X : Mat) (a b i p : Nat) :
    swapCols X a b i p = X i (Equiv.swap a b p) := by
  rw [swapCols_apply, Equiv.swap_apply_def]
  by_cases h0 : p = a
  · rw [if_pos h0, if_pos h0]
  · rw [if_neg h0, if_neg h0]
    by_cases h1 : p = b
    · rw [if_pos h1, if_pos h1]
    · rw [if_neg h1, if_neg h1]

theorem orth_swapRows (Wd : Nat) (X W : Mat) (N M a b : Nat)
    (haN : a < N) (hbN : b < N) (h : Orth Wd X W N M) :
    Orth Wd (swapRows X a b) W N M := by
  intro i hi m hm
  by_cases h1 : i = a
  · subst h1
    have : ∀ p, swapRows X i b i p = X b p := fun p => by
      rw [swapRows_apply, if_pos rfl]
    have hcong : (Finset.range Wd).filter (fun p => swapRows X i b i p = true ∧ W m p = true) =
        (Finset.range Wd).filter (fun p => X b p = true ∧ W m p = true) := by
      apply Finset.filter_congr
      intro p _
      rw [this p]
    rw [hcong]
    exact h b hbN m hm
  · by_cases h2 : i = b
    · subst h2
      have : ∀ p, swapRows X a i i p = X a p := fun p => by
        rw [swapRows_apply, if_neg h1, if_pos rfl]
      have hcong : (Finset.range Wd).filter
          (fun p => swapRows X a i i p = true ∧ W m p = true) =
          (Finset.range Wd).filter (fun p => X a p = true ∧ W m p = true) := by
        apply Finset.filter_congr
        intro p _
        rw [this p]
      rw [hcong]
      exact h a haN m hm
    · have : ∀ p, swapRows X a b i p = X i p := fun p => by
        rw [swapRows_apply, if_neg h1, if_neg h2]
      have hcong : (Finset.range Wd).filter
          (fun p => swapRows X a b i p = true ∧ W m p = true) =
          (Finset.range Wd).filter (fun p => X i p = true ∧ W m p = true) := by
        apply Finset.filter_congr
        intro p _
        rw [this p]
      rw [hcong]
      exact h i hi m hm

theorem orth_swapCols (Wd : Nat) (X W : Mat) (N M a b : Nat)
    (ha : a < Wd) (hb : b < Wd) (h : Orth Wd X W N M) :
    Orth Wd (swapCols X a b) (swapCols W a b) N M := by
  intro i hi m hm
  have hcong : (Finset.range Wd).filter
      (fun p => swapCols X a b i p = true ∧ swapCols W a b m p = true) =
      (Finset.range Wd).filter
      (fun p => X i (Equiv.swap a b p) = true ∧ W m (Equiv.swap a b p) = true) := by
    apply Finset.filter_congr
    intro p _
    rw [swapCols_as_swap, swapCols_as_swap]
  rw [hcong]
  have := card_filter_perm Wd (Equiv.swap a b) (swap_preserves_lt a b Wd ha hb)
    (fun q => X i q = true ∧ W m q = true)
  rw [this]
  exact h i hi m hm

theorem orth_elimAll (Wd : Nat) (X W : Mat) (N M p j : Nat) (hpN : p < N)
    (h : Orth Wd X W N M) : Orth Wd (elimAll N X p j) W N M := by
  intro i hi m hm
  by_cases hcase : i < N ∧ i ≠ p ∧ X i j = true
  · have hrow : ∀ k, elimAll N X p j i k = xor (X i k) (X p k) := fun k => by
      rw [elimAll_apply, if_pos hcase]
    have hcong : (Finset.range Wd).filter
        (fun q => elimAll N X p j i q = true ∧ W m q = true) =
        (Finset.range Wd).filter
        (fun q => xor (X i q) (X p q) = true ∧ W m q = true) := by
      apply Finset.filter_congr
      intro q _
      rw [hrow q]
    rw [hcong]
    exact even_card_filter_xor Wd (X i) (X p) (W m) (h i hi m hm) (h p hpN m hm)
  · have hrow : ∀ k, elimAll N X p j i k = X i k := fun k => by
      rw [elimAll_apply, if_neg hcase]
    have hcong : (Finset.range Wd).filter
        (fun q => elimAll N X p j i q = true ∧ W m q = true) =
        (Finset.range Wd).filter (fun q => X i q = true ∧ W m q = true) := by
      apply Finset.filter_congr
      intro q _
      rw [hrow q]
    rw [hcong]
    exact h i hi m hm

theorem AInv_zero (H : Mat) (M N : Nat) : AInv H M N 0 (initX H M) := by
  refine ⟨fun j hj => by omega, ?_, ?_⟩
  · intro i hti hiM c hc1 hc2
    unfold initX
    rw [if_neg (by omega)]
    simp only [decide_eq_false_iff_not]
    omega
  · refine ⟨∅, fun _ => 0,
      fun m p => if p < M then decide (p = m) else H m (p - M),
      fun k hk => absurd hk (Finset.not_mem_empty k), ?_, ?_⟩
    · intro i hi m hm
      have hset : (Finset.range (M + N)).filter
          (fun p => initX H M i p = true ∧
            (if p < M then decide (p = m) else H m (p - M)) = true) =
          (if H m i = true then {m, M + i} else ∅) := by
        ext p
        unfold initX
        by_cases hHmi : H m i = true
        · rw [if_pos hHmi]
          simp only [Finset.mem_filter, Finset.mem_range, Finset.mem_insert,
            Finset.mem_singleton]
          constructor
          · rintro ⟨hp, h1, h2⟩
            by_cases hpM : p < M
            · rw [if_pos hpM] at h1 h2
              left
              exact of_decide_eq_true h2
            · rw [if_neg hpM] at h1 h2
              right
              have := of_decide_eq_true h1
              omega
          · rintro (rfl | rfl)
            · rw [if_pos hm, if_pos hm]
              refine ⟨by omega, hHmi, by simp⟩
            · rw [if_neg (by omega), if_neg (by omega)]
              refine ⟨by omega, by simp, by simpa using hHmi⟩
        · rw [if_neg hHmi]
          simp only [Finset.mem_filter, Finset.mem_range, Finset.not_mem_empty,
            iff_false, not_and]
          intro hp h1 h2
          apply hHmi
          by_cases hpM : p < M
          · rw [if_pos hpM] at h1 h2
            have h2' := of_decide_eq_true h2
            rw [← h2']
            exact h1
          · rw [if_neg hpM] at h1 h2
            have h1' := of_decide_eq_true h1
            have : p - M = i := by omega
            rw [← this]
            exact h2
      rw [hset]
      split
      · rw [Finset.card_pair (by omega)]
        decide
      · rw [Finset.card_empty]
        decide
    · intro p h1 h2 _ m hm
      show (if p < M then decide (p = m) else H m (p - M)) = H m (p - M)
      rw [if_neg (by omega)]

theorem AInv_step (H : Mat) (M N t : Nat) (hMN : M ≤ N) (ht : t < M)
    (X : Mat) (inv : AInv H M N t X) (hsucc : fixA M N X t t t = true) :
    AInv H M N (t + 1) (phaseAstep M N X t) := by
  obtain ⟨mis, bd, W, hmis, horth, halign⟩ := inv.ghost
  have htN : t < N := lt_of_lt_of_le ht hMN
  set X1 := fixA M N X t with hX1def
  have key : ∃ (mis1 : Finset Nat) (bd1 : Nat → Nat) (W1 : Mat),
      (∀ j, j < t → ∀ i, i < N → X1 i j = decide (i = j)) ∧
      X1 t t = true ∧
      (∀ i, t + 1 ≤ i → i < M → ∀ c, 2 * M ≤ c → c < M + N → X1 i c = false) ∧
      ((∀ c, 2 * M ≤ c → c < M + N → X1 t c = false) ∨
        (∀ i, t + 1 ≤ i → i < M → X1 i t = false)) ∧
      (∀ k ∈ mis1, M ≤ k ∧ k < 2 * M ∧ bd1 k < t + 1 ∧ bd1 k < M ∧
        ∀ i, bd1 k ≤ i → i < N → X1 i k = false) ∧
      Orth (M + N) X1 W1 N M ∧
      (∀ p, M ≤ p → p < M + N → p ∉ mis1 → ∀ m, m < M → W1 m p = H m (p - M)) := by
    by_cases hp : X t t = true
    · have hX1 : X1 = X := by
        rw [hX1def]
        unfold fixA
        rw [if_pos hp]
      rw [hX1]
      exact ⟨mis, bd, W, inv.settled, hp,
        fun i h1 h2 => inv.middle i (by omega) h2,
        Or.inl (fun c h1 h2 => inv.middle t (le_refl t) ht c h1 h2),
        fun k hk => by
          obtain ⟨a, b, c, d, e⟩ := hmis k hk
          exact ⟨a, b, by omega, d, e⟩,
        horth, halign⟩
    · cases hs : searchUp (fun i => X i t) (t + 1) (N - (t + 1)) with
      | some i0 =>
        obtain ⟨hge, hlt, hPi, hfirst⟩ := searchUp_some hs
        have hi0N : i0 < N := by omega
        have hi0t : i0 ≠ t := by omega
        have hX1 : X1 = swapRows X t i0 := by
          rw [hX1def]
          unfold fixA
          rw [if_neg hp, hs]
        rw [hX1]
        refine ⟨mis, bd, W, ?_, ?_, ?_, ?_, ?_, ?_, halign⟩
        · intro j hj i hi
          rw [swapRows_col_const X t i0 j (by
            rw [inv.settled j hj t htN, inv.settled j hj i0 hi0N,
              decide_eq_false (by omega : ¬ t = j),
              decide_eq_false (by omega : ¬ i0 = j)]) i]
          exact inv.settled j hj i hi
        · rw [swapRows_apply, if_pos rfl]
          exact hPi
        · intro i h1 h2 c hc1 hc2
          by_cases hii : i = i0
          · subst hii
            rw [swapRows_apply, if_neg hi0t, if_pos rfl]
            exact inv.middle t (le_refl t) ht c hc1 hc2
          · rw [swapRows_apply, if_neg (by omega), if_neg hii]
            exact inv.middle i (by omega) h2 c hc1 hc2
        · by_cases hi0M : i0 < M
          · refine Or.inl (fun c h1 h2 => ?_)
            rw [swapRows_apply, if_pos rfl]
            exact inv.middle i0 (by omega) hi0M c h1 h2
          · refine Or.inr (fun i h1 h2 => ?_)
            rw [swapRows_apply, if_neg (by omega), if_neg (by omega)]
            exact hfirst i (by omega) (by omega)
        · intro k hk
          obtain ⟨a, b, c, d, e⟩ := hmis k hk
          refine ⟨a, b, by omega, d, ?_⟩
          intro i h1 h2
          rw [swapRows_col_const X t i0 k (by
            rw [e t (by omega) htN, e i0 (by omega) hi0N]) i]
          exact e i h1 h2
        · exact orth_swapRows (M + N) X W N M t i0 htN hi0N horth
      | none =>
        have hnone := searchUp_none hs
        cases hd : searchDown (fun k => X t k) t (M + N) with
        | some k0 =>
          obtain ⟨hk1, hk2, hPk, hlast⟩ := searchDown_some hd
          have hk02M : k0 < 2 * M := by
            by_contra hge2
            push_neg at hge2
            rw [inv.middle t (le_refl t) ht k0 hge2 hk2] at hPk
            exact Bool.false_ne_true hPk
          have hX1 : X1 = swapCols X t k0 := by
            rw [hX1def]
            unfold fixA
            rw [if_neg hp, hs, hd]
          rw [hX1]
          have hsettled1 : ∀ j, j < t → ∀ i, i < N →
              swapCols X t k0 i j = decide (i = j) := by
            intro j hj i hi
            rw [swapCols_other X t k0 j (by omega) (by omega) i]
            exact inv.settled j hj i hi
          have hpiv1 : swapCols X t k0 t t = true := by
            rw [swapCols_apply, if_pos rfl]
            exact hPk
          have hmiddle1 : ∀ i, t + 1 ≤ i → i < M → ∀ c, 2 * M ≤ c → c < M + N →
              swapCols X t k0 i c = false := by
            intro i h1 h2 c hc1 hc2
            rw [swapCols_other X t k0 c (by omega) (by omega) i]
            exact inv.middle i (by omega) h2 c hc1 hc2
          have hprotect : ∀ c, 2 * M ≤ c → c < M + N →
              swapCols X t k0 t c = false := by
            intro c hc1 hc2
            rw [swapCols_other X t k0 c (by omega) (by omega) t]
            exact inv.middle t (le_refl t) ht c hc1 hc2
          by_cases hk0M : k0 < M
          · refine ⟨mis, bd, swapCols W t k0, hsettled1, hpiv1, hmiddle1,
              Or.inl hprotect, ?_, ?_, ?_⟩
            · intro k hk
              obtain ⟨a, b, c, d, e⟩ := hmis k hk
              refine ⟨a, b, by omega, d, ?_⟩
              intro i h1 h2
              rw [swapCols_other X t k0 k (by omega) (by omega) i]
              exact e i h1 h2
            · exact orth_swapCols (M + N) X W N M t k0 (by omega) (by omega) horth
            · intro p h1 h2 hpnot m hm
              rw [swapCols_other W t k0 p (by omega) (by omega) m]
              exact halign p h1 h2 hpnot m hm
          · have hk0mis : k0 ∉ mis := by
              intro hin
              obtain ⟨a, b, c, d, e⟩ := hmis k0 hin
              rw [e t (by omega) htN] at hPk
              exact Bool.false_ne_true hPk
            refine ⟨insert k0 mis, fun k => if k = k0 then t else bd k,
              swapCols W t k0, hsettled1, hpiv1, hmiddle1, Or.inl hprotect,
              ?_, ?_, ?_⟩
            · intro k hk
              rcases Finset.mem_insert.mp hk with rfl | hkmis
              · refine ⟨by omega, hk02M, by simp, by simp; omega, ?_⟩
                intro i h1 h2
                replace h1 : t ≤ i := by simpa using h1
                rw [swapCols_apply, if_neg (by omega), if_pos rfl]
                rcases Nat.eq_or_lt_of_le h1 with rfl | hgt
                · exact Bool.eq_false_iff.mpr hp
                · exact hnone i (by omega) (by omega)
              · obtain ⟨a, b, c, d, e⟩ := hmis k hkmis
                have hkk0 : k ≠ k0 := fun hkk => hk0mis (hkk ▸ hkmis)
                refine ⟨a, b, by simp only [if_neg hkk0]; omega,
                  by simp only [if_neg hkk0]; exact d, ?_⟩
                intro i h1 h2
                replace h1 : bd k ≤ i := by simpa [hkk0] using h1
                rw [swapCols_other X t k0 k (by omega) hkk0 i]
                exact e i h1 h2
            · exact orth_swapCols (M + N) X W N M t k0 (by omega) (by omega) horth
            · intro p h1 h2 hpnot m hm
              have hpk0 : p ≠ k0 := fun h => hpnot (h ▸ Finset.mem_insert_self k0 mis)
              rw [swapCols_other W t k0 p (by omega) hpk0 m]
              exact halign p h1 h2 (fun h => hpnot (Finset.mem_insert_of_mem h)) m hm
        | none =>
          exfalso
          have hX1 : X1 = X := by
            rw [hX1def]
            unfold fixA
            rw [if_neg hp, hs, hd]
          rw [hX1] at hsucc
          exact hp hsucc
  obtain ⟨mis1, bd1, W1, hsettled1, hpiv1, hmiddle1, hprotect, hmis1, horth1, halign1⟩ := key
  have hstep : phaseAstep M N X t = elimAll N X1 t t := rfl
  rw [hstep]
  refine ⟨?_, ?_, ?_⟩
  · intro j hj i hi
    by_cases hjt : j = t
    · rw [hjt]
      exact elimAll_settles N X1 t t hpiv1 i hi
    · have hjt' : j < t := by omega
      have hc : X1 t j = false := by
        rw [hsettled1 j hjt' t htN]
        exact decide_eq_false (by omega)
      rw [elimAll_false_col N X1 t t j hc i]
      exact hsettled1 j hjt' i hi
  · intro i hi1 hi2 c hc1 hc2
    rcases hprotect with hL | hR
    · rw [elimAll_false_col N X1 t t c (hL c hc1 hc2) i]
      exact hmiddle1 i hi1 hi2 c hc1 hc2
    · rw [elimAll_skip_row N X1 t t i (hR i hi1 hi2) c]
      exact hmiddle1 i hi1 hi2 c hc1 hc2
  · refine ⟨mis1, bd1, W1, ?_, ?_, halign1⟩
    · intro k hk
      obtain ⟨h1, h2, h3, h4, h5⟩ := hmis1 k hk
      refine ⟨h1, h2, h3, h4, ?_⟩
      intro i hi1 hi2
      have hct : X1 t k = false := h5 t (by omega) htN
      rw [elimAll_false_col N X1 t t k hct i]
      exact h5 i hi1 hi2
    · exact orth_elimAll (M + N) X1 W1 N M t t htN horth1

theorem AInv_steps (H : Mat) (M N : Nat) (hMN : M ≤ N) (hA : successA H M N) :
    ∀ t, t ≤ M → AInv H M N t (stepsA H M N t) := by
  intro t
  induction t with
  | zero => exact fun _ => AInv_zero H M N
  | succ s ih =>
    intro hs
    rw [stepsA_succ]
    exact AInv_step H M N s hMN (by omega) _ (ih (by omega)) (hA s (by omega))

theorem BInv_base (H : Mat) (M N : Nat) (invA : AInv H M N M (stepsA H M N M)) :
    BInv M N 0 (stepsA H M N M, H) := by
  obtain ⟨mis, bd, W, hmis, horth, halign⟩ := invA.ghost
  refine ⟨invA.settled, fun t' ht' => by omega, mis, bd, W, ?_, horth, halign⟩
  intro k hk
  obtain ⟨a, b, c, d, e⟩ := hmis k hk
  exact ⟨a, b, d, e⟩

theorem BInv_step (M N t : Nat) (hMN : M ≤ N) (ht : t < N - M)
    (s : Mat × Mat) (inv : BInv M N t s)
    (hsucc : (fixB M N s (2 * M + t)).1 (M + t) (2 * M + t) = true) :
    BInv M N (t + 1) (phaseBstep M N s (2 * M + t)) := by
  obtain ⟨mis, bd, W, hmis0, horth0, halign0⟩ := inv.ghost
  have hpN : M + t < N := by omega
  have hjW : 2 * M + t < M + N := by omega
  have hsub : 2 * M + t - M = M + t := by omega
  obtain ⟨X, Hc⟩ := s
  have hsetA : ∀ j, j < M → ∀ i, i < N → X i j = decide (i = j) := inv.settledA
  have hsetB : ∀ t', t' < t → ∀ i, i < N →
      X i (2 * M + t') = decide (i = M + t') := inv.settledB
  have hmis : ∀ k ∈ mis, M ≤ k ∧ k < 2 * M ∧ bd k < M ∧
      ∀ i, bd k ≤ i → i < N → X i k = false := hmis0
  have horth : Orth (M + N) X W N M := horth0
  have halign : ∀ p, M ≤ p → p < M + N → p ∉ mis → ∀ m, m < M →
      W m p = Hc m (p - M) := halign0
  set s1 := fixB M N (X, Hc) (2 * M + t) with hs1def
  have key :
      (∀ j, j < M → ∀ i, i < N → s1.1 i j = decide (i = j)) ∧
      (∀ t', t' < t → ∀ i, i < N → s1.1 i (2 * M + t') = decide (i = M + t')) ∧
      s1.1 (M + t) (2 * M + t) = true ∧
      (∀ k ∈ mis, M ≤ k ∧ k < 2 * M ∧ bd k < M ∧
        ∀ i, bd k ≤ i → i < N → s1.1 i k = false) ∧
      (∃ W1 : Mat, Orth (M + N) s1.1 W1 N M ∧
        (∀ p, M ≤ p → p < M + N → p ∉ mis → ∀ m, m < M →
          W1 m p = s1.2 m (p - M))) := by
    by_cases hp : X (M + t) (2 * M + t) = true
    · have hs1 : s1 = (X, Hc) := by
        rw [hs1def]
        unfold fixB
        rw [hsub, if_pos hp]
      rw [hs1]
      exact ⟨hsetA, hsetB, hp, hmis, W, horth, halign⟩
    · cases hs : searchUp (fun i => X i (2 * M + t)) (M + t + 1) (N - (M + t + 1)) with
      | some i0 =>
        obtain ⟨hge, hlt, hPi, hfirst⟩ := searchUp_some hs
        have hi0N : i0 < N := by omega
        have hX1 : s1.1 = swapRows X (M + t) i0 := by
          rw [hs1def]
          unfold fixB
          rw [hsub, if_neg hp, hs]
        have hH1 : s1.2 = Hc := by
          rw [hs1def]
          unfold fixB
          rw [hsub, if_neg hp, hs]
        rw [hX1, hH1]
        refine ⟨?_, ?_, ?_, ?_, W, ?_, halign⟩
        · intro j hj i hi
          rw [swapRows_col_const X (M + t) i0 j (by
            rw [hsetA j hj (M + t) hpN, hsetA j hj i0 hi0N,
              decide_eq_false (by omega : ¬ M + t = j),
              decide_eq_false (by omega : ¬ i0 = j)]) i]
          exact hsetA j hj i hi
        · intro t' ht' i hi
          rw [swapRows_col_const X (M + t) i0 (2 * M + t') (by
            rw [hsetB t' ht' (M + t) hpN, hsetB t' ht' i0 hi0N,
              decide_eq_false (by omega : ¬ M + t = M + t'),
              decide_eq_false (by omega : ¬ i0 = M + t')]) i]
          exact hsetB t' ht' i hi
        · rw [swapRows_apply, if_pos rfl]
          exact hPi
        · intro k hk
          obtain ⟨a, b, d, e⟩ := hmis k hk
          refine ⟨a, b, d, ?_⟩
          intro i h1 h2
          rw [swapRows_col_const X (M + t) i0 k (by
            rw [e (M + t) (by omega) hpN, e i0 (by omega) hi0N]) i]
          exact e i h1 h2
        · exact orth_swapRows (M + N) X W N M (M + t) i0 hpN hi0N horth
      | none =>
        cases hd : searchDown (fun k => X (M + t) k) (M - 1) (M + N) with
        | some k0 =>
          obtain ⟨hk1, hk2, hPk, hlast⟩ := searchDown_some hd
          have hk0M : M ≤ k0 := by omega
          have hk0j : k0 ≠ 2 * M + t := by
            intro hkk
            rw [hkk] at hPk
            rw [hPk] at hp
            exact hp rfl
          have hjmis : 2 * M + t ∉ mis := by
            intro hin
            obtain ⟨-, hb2, -, -⟩ := hmis _ hin
            omega
          have hk0mis : k0 ∉ mis := by
            intro hin
            obtain ⟨-, -, hbd, he⟩ := hmis k0 hin
            rw [he (M + t) (by omega) hpN] at hPk
            exact Bool.false_ne_true hPk
          have hX1 : s1.1 = swapCols X (2 * M + t) k0 := by
            rw [hs1def]
            unfold fixB
            rw [hsub, if_neg hp, hs, hd]
          have hH1 : s1.2 = swapCols Hc (2 * M + t - M) (k0 - M) := by
            rw [hs1def]
            unfold fixB
            rw [hsub, if_neg hp, hs, hd]
          rw [hX1, hH1]
          refine ⟨?_, ?_, ?_, ?_, swapCols W (2 * M + t) k0, ?_, ?_⟩
          · intro j hj i hi
            rw [swapCols_other X (2 * M + t) k0 j (by omega) (by omega) i]
            exact hsetA j hj i hi
          · intro t' ht' i hi
            have hne : 2 * M + t' ≠ k0 := by
              intro hkk
              rw [← hkk] at hPk
              rw [hsetB t' ht' (M + t) hpN,
                decide_eq_false (by omega : ¬ M + t = M + t')] at hPk
              exact Bool.false_ne_true hPk
            rw [swapCols_other X (2 * M + t) k0 (2 * M + t') (by omega) hne i]
            exact hsetB t' ht' i hi
          · rw [swapCols_apply, if_pos rfl]
            exact hPk
          · intro k hk
            obtain ⟨a, b, d, e⟩ := hmis k hk
            have hkk0 : k ≠ k0 := fun hkk => hk0mis (hkk ▸ hk)
            refine ⟨a, b, d, ?_⟩
            intro i h1 h2
            rw [swapCols_other X (2 * M + t) k0 k (by omega) hkk0 i]
            exact e i h1 h2
          · exact orth_swapCols (M + N) X W N M (2 * M + t) k0 hjW hk2 horth
          · intro p h1 h2 hpnot m hm
            show swapCols W (2 * M + t) k0 m p =
              swapCols Hc (2 * M + t - M) (k0 - M) m (p - M)
            by_cases hpj : p = 2 * M + t
            · rw [hpj, swapCols_apply, if_pos rfl]
              rw [halign k0 hk0M hk2 hk0mis m hm]
              rw [swapCols_apply]
              rw [if_pos (by omega)]
            · by_cases hpk : p = k0
              · rw [hpk, swapCols_apply, if_neg hk0j, if_pos rfl]
                rw [halign (2 * M + t) (by omega) hjW hjmis m hm]
                rw [swapCols_apply]
                rw [if_neg (by omega), if_pos (by omega)]
              · rw [swapCols_other W (2 * M + t) k0 p hpj hpk m]
                rw [swapCols_other Hc (2 * M + t - M) (k0 - M) (p - M)
                  (by omega) (by omega) m]
                exact halign p h1 h2 hpnot m hm
        | none =>
          exfalso
          have hX1 : s1.1 = X := by
            rw [hs1def]
            unfold fixB
            rw [hsub, if_neg hp, hs, hd]
          rw [hX1] at hsucc
          exact hp hsucc
  obtain ⟨hsetA1, hsetB1, hpiv1, hmis1, W1, horth1, halign1⟩ := key
  have hstep : phaseBstep M N (X, Hc) (2 * M + t) =
      (elimAll N s1.1 (M + t) (2 * M + t), s1.2) := by
    unfold phaseBstep
    rw [← hs1def, hsub]
  rw [hstep]
  refine ⟨?_, ?_, ?_⟩
  · intro j hj i hi
    have hc : s1.1 (M + t) j = false := by
      rw [hsetA1 j hj (M + t) hpN]
      exact decide_eq_false (by omega)
    show elimAll N s1.1 (M + t) (2 * M + t) i j = decide (i = j)
    rw [elimAll_false_col N s1.1 (M + t) (2 * M + t) j hc i]
    exact hsetA1 j hj i hi
  · intro t' ht' i hi
    show elimAll N s1.1 (M + t) (2 * M + t) i (2 * M + t') = decide (i = M + t')
    by_cases htt : t' = t
    · rw [htt]
      exact elimAll_settles N s1.1 (M + t) (2 * M + t) hpiv1 i hi
    · have ht'' : t' < t := by omega
      have hc : s1.1 (M + t) (2 * M + t') = false := by
        rw [hsetB1 t' ht'' (M + t) hpN]
        exact decide_eq_false (by omega)
      rw [elimAll_false_col N s1.1 (M + t) (2 * M + t) (2 * M + t') hc i]
      exact hsetB1 t' ht'' i hi
  · refine ⟨mis, bd, W1, ?_, ?_, halign1⟩
    · intro k hk
      obtain ⟨a, b, d, e⟩ := hmis1 k hk
      refine ⟨a, b, d, ?_⟩
      intro i h1 h2
      have hct : s1.1 (M + t) k = false := e (M + t) (by omega) hpN
      show elimAll N s1.1 (M + t) (2 * M + t) i k = false
      rw [elimAll_false_col N s1.1 (M + t) (2 * M + t) k hct i]
      exact e i h1 h2
    · exact orth_elimAll (M + N) s1.1 W1 N M (M + t) (2 * M + t) hpN horth1

theorem BInv_steps (H : Mat) (M N : Nat) (hMN : M ≤ N)
    (hA : successA H M N) (hB : successB H M N) :
    ∀ t, t ≤ N - M → BInv M N t (stepsB H M N t) := by
  intro t
  induction t with
  | zero =>
    intro _
    exact BInv_base H M N (AInv_steps H M N hMN hA M (le_refl M))
  | succ s ih =>
    intro hs
    rw [stepsB_succ]
    exact BInv_step M N s hMN (by omega) _ (ih (by omega)) (hB s (by omega))

/-- Claim C1: whenever every pivot search of both elimination phases finds a
pivot, the generator returned by `generate_Gmatrix` annihilates the
(possibly column-permuted) `H′` left in the `H` buffer: for every row of `G`
and every row of `H′` the number of positions where both carry a one is
even, i.e. `G·H′ᵀ = 0` over GF(2). -/
theorem build_G_annihilates (H : Mat) (N wc wr : Nat)
    (hMN : Mdim N wc wr ≤ N)
    (hA : successA H (Mdim N wc wr) N) (hB : successB H (Mdim N wc wr) N) :
    ∀ a, a < N - Mdim N wc wr → ∀ m, m < Mdim N wc wr →
      Even (((Finset.range N).filter (fun c =>
        (generate_Gmatrix H N wc wr).2 a c = true ∧
        (generate_Gmatrix H N wc wr).1 m c = true)).card) := by
  intro a ha m hm
  set M := Mdim N wc wr with hMdef
  set sfin := stepsB H M N (N - M) with hsfin
  have hG : ∀ a' c : Nat,
      (generate_Gmatrix H N wc wr).2 a' c = sfin.1 (M + a') (M + c) :=
    fun _ _ => rfl
  have hHp : ∀ m' c : Nat, (generate_Gmatrix H N wc wr).1 m' c = sfin.2 m' c :=
    fun _ _ => rfl
  have inv := BInv_steps H M N hMN hA hB (N - M) (le_refl _)
  rw [← hsfin] at inv
  obtain ⟨mis, bd, W, hmis, horth, halign⟩ := inv.ghost
  have hiN : M + a < N := by omega
  have horthi := horth (M + a) hiN m hm
  have hcong : (Finset.range N).filter (fun c =>
      (generate_Gmatrix H N wc wr).2 a c = true ∧
      (generate_Gmatrix H N wc wr).1 m c = true) =
      (Finset.range N).filter (fun c =>
        sfin.1 (M + a) (M + c) = true ∧ sfin.2 m c = true) := by
    apply Finset.filter_congr
    intro c _
    rw [hG, hHp]
  rw [hcong]
  have hcard : ((Finset.range N).filter (fun c =>
      sfin.1 (M + a) (M + c) = true ∧ sfin.2 m c = true)).card =
      ((Finset.range (M + N)).filter (fun p =>
        sfin.1 (M + a) p = true ∧ W m p = true)).card := by
    apply Finset.card_nbij' (i := fun c => M + c) (j := fun p => p - M)
    · intro c hc
      simp only [Finset.mem_coe, Finset.mem_filter, Finset.mem_range] at hc ⊢
      obtain ⟨hcN, hX, hHm⟩ := hc
      have hmem : (M + c) ∉ mis := by
        intro hmem
        obtain ⟨-, -, hbd, hzero⟩ := hmis _ hmem
        rw [hzero (M + a) (by omega) (by omega)] at hX
        exact Bool.false_ne_true hX
      refine ⟨by omega, hX, ?_⟩
      rw [halign (M + c) (by omega) (by omega) hmem m hm]
      have heq : M + c - M = c := by omega
      rw [heq]
      exact hHm
    · intro p hp
      simp only [Finset.mem_coe, Finset.mem_filter, Finset.mem_range] at hp ⊢
      obtain ⟨hpMN, hX, hW⟩ := hp
      have hpM : M ≤ p := by
        by_contra hcon
        push_neg at hcon
        rw [inv.settledA p hcon (M + a) (by omega),
          decide_eq_false (by omega : ¬ M + a = p)] at hX
        exact Bool.false_ne_true hX
      have hpmis : p ∉ mis := by
        intro hmem
        obtain ⟨-, -, hbd, hzero⟩ := hmis _ hmem
        rw [hzero (M + a) (by omega) (by omega)] at hX
        exact Bool.false_ne_true hX
      have heq : M + (p - M) = p := by omega
      refine ⟨by omega, by rw [heq]; exact hX, ?_⟩
      rw [← halign p hpM hpMN hpmis m hm]
      exact hW
    · intro c _
      omega
    · intro p hp
      simp only [Finset.mem_coe, Finset.mem_filter, Finset.mem_range] at hp
      obtain ⟨hpMN, hX, hW⟩ := hp
      have hpM : M ≤ p := by
        by_contra hcon
        push_neg at hcon
        rw [inv.settledA p hcon (M + a) (by omega),
          decide_eq_false (by omega : ¬ M + a = p)] at hX
        exact Bool.false_ne_true hX
      omega
  rw [hcard]
  exact horthi

theorem build_G_annihilates_witness :
    Mdim 2 1 2 ≤ 2 ∧ successA (fun _ _ => true) (Mdim 2 1 2) 2 ∧
      successB (fun _ _ => true) (Mdim 2 1 2) 2 ∧
      0 < 2 - Mdim 2 1 2 ∧ 0 < Mdim 2 1 2 ∧
      Even (((Finset.range 2).filter (fun c =>
        (generate_Gmatrix (fun _ _ => true) 2 1 2).2 0 c = true ∧
        (generate_Gmatrix (fun _ _ => true) 2 1 2).1 0 c = true)).card) :=
  ⟨by decide, by decide, by decide, by decide, by decide,
    build_G_annihilates (fun _ _ => true) 2 1 2 (by decide) (by decide) (by decide)
      0 (by decide) 0 (by decide)⟩

/-- Claim C3: whenever every pivot search of both elimination phases finds a
pivot, `G` carries the `K × K` identity in its last `K` columns:
`G[i][M+i'] = 1` iff `i = i'`. -/
theorem build_G_systematic_identity (H : Mat) (N wc wr : Nat)
    (hMN : Mdim N wc wr ≤ N)
    (hA : successA H (Mdim N wc wr) N) (hB : successB H (Mdim N wc wr) N) :
    ∀ a, a < N - Mdim N wc wr → ∀ a', a' < N - Mdim N wc wr →
      (generate_Gmatrix H N wc wr).2 a (Mdim N wc wr + a') = decide (a = a') := by
  intro a ha a' ha'
  set M := Mdim N wc wr with hMdef
  have inv := BInv_steps H M N hMN hA hB (N - M) (le_refl _)
  have hG : (generate_Gmatrix H N wc wr).2 a (M + a') =
      (stepsB H M N (N - M)).1 (M + a) (M + (M + a')) := rfl
  rw [hG]
  have h2M : M + (M + a') = 2 * M + a' := by ring
  rw [h2M]
  rw [inv.settledB a' ha' (M + a) (by omega)]
  by_cases haa : a = a'
  · rw [haa]
    simp
  · rw [decide_eq_false (by omega : ¬ M + a = M + a'),
      decide_eq_false haa]

theorem build_G_systematic_identity_witness :
    Mdim 2 1 2 ≤ 2 ∧ successA (fun i j => decide (i = 0 ∨ j = 0)) (Mdim 2 1 2) 2 ∧
      successB (fun i j => decide (i = 0 ∨ j = 0)) (Mdim 2 1 2) 2 ∧
      0 < 2 - Mdim 2 1 2 ∧
      (generate_Gmatrix (fun i j => decide (i = 0 ∨ j = 0)) 2 1 2).2 0 (Mdim 2 1 2 + 0) =
        decide ((0 : Nat) = 0) :=
  ⟨by decide, by decide, by decide, by decide,
    build_G_systematic_identity (fun i j => decide (i = 0 ∨ j = 0)) 2 1 2
      (by decide) (by decide) (by decide) 0 (by decide) 0 (by decide)⟩

end Ldpc
